import Mathlib

/-!
# Tor v3 onion address derivation (terraform-provider-tor)

A shallow embedding of `internal/provider/tor_keys_resource.go`:
`encodePublicKey` and the `Create` method of the `tor_keys` resource, together
with the library routines they call (`encoding/base32`, `encoding/base64`,
`golang.org/x/crypto/sha3`, `github.com/google/uuid`).

Go's `byte` is `Fin 256`; a `[]byte` is a `List Byte`; a Go `string` made of
ASCII bytes is a Lean `String`.  `uint32`/`uint64` arithmetic is done on `Nat`
with an explicit reduction modulo `2^32`/`2^64`.
-/

/-- Go's `byte`. -/
abbrev Byte := Fin 256

/-- The bytes of an ASCII string literal, as `[]byte("...")`. -/
def bytesOf (s : String) : List Byte := s.toList.map fun c => Fin.ofNat c.toNat

/-! ## `golang.org/x/crypto/sha3` : SHA3-256 (FIPS 202) -/

namespace sha3

/-- The 64-bit lane mask. -/
def mask64 : Nat := 2 ^ 64 - 1

/-- Rotate a 64-bit lane left by `n` bits (`bits.RotateLeft64`). -/
def rotl64 (x n : Nat) : Nat := ((x <<< n) ||| (x >>> (64 - n))) % 2 ^ 64

/-- The 24 round constants of Keccak-f[1600]. -/
def rc : List Nat :=
  [0x0000000000000001, 0x0000000000008082, 0x800000000000808A, 0x8000000080008000,
   0x000000000000808B, 0x0000000080000001, 0x8000000080008081, 0x8000000000008009,
   0x000000000000008A, 0x0000000000000088, 0x0000000080008009, 0x000000008000000A,
   0x000000008000808B, 0x800000000000008B, 0x8000000000008089, 0x8000000000008003,
   0x8000000000008002, 0x8000000000000080, 0x000000000000800A, 0x800000008000000A,
   0x8000000080008081, 0x8000000000008080, 0x0000000080000001, 0x8000000080008008]

/-- The rotation offsets of the rho step, indexed by `x + 5 * y`. -/
def rotc : List Nat :=
  [ 0,  1, 62, 28, 27,
   36, 44,  6, 55, 20,
    3, 10, 43, 25, 39,
   41, 45, 15, 21,  8,
   18,  2, 61, 56, 14]

/-- Lane `(x, y)` of a state of 25 lanes stored at index `x + 5 * y`. -/
def lane (a : List Nat) (x y : Nat) : Nat := a.getD (x % 5 + 5 * (y % 5)) 0

/-- The theta step. -/
def theta (a : List Nat) : List Nat :=
  let c := (List.range 5).map fun x =>
    lane a x 0 ^^^ lane a x 1 ^^^ lane a x 2 ^^^ lane a x 3 ^^^ lane a x 4
  let d := (List.range 5).map fun x => c.getD ((x + 4) % 5) 0 ^^^ rotl64 (c.getD ((x + 1) % 5) 0) 1
  (List.range 25).map fun i => a.getD i 0 ^^^ d.getD (i % 5) 0

/-- The rho and pi steps: `B[y, 2x+3y] = rot(A[x, y], r[x, y])`.  Lane `(X, Y)` of the
result comes from the lane `(x, y)` with `y = X` and `2x + 3y = Y`, that is `x = X + 3Y`. -/
def rhoPi (a : List Nat) : List Nat :=
  (List.range 25).map fun i =>
    let bx := i % 5
    let by_ := i / 5
    let x := (bx + 3 * by_) % 5
    let y := bx
    rotl64 (lane a x y) (rotc.getD (x + 5 * y) 0)

/-- The chi step. -/
def chi (b : List Nat) : List Nat :=
  (List.range 25).map fun i =>
    let x := i % 5
    let y := i / 5
    lane b x y ^^^ ((lane b (x + 1) y ^^^ mask64) &&& lane b (x + 2) y)

/-- The iota step for round constant `k`. -/
def iota (k : Nat) (a : List Nat) : List Nat :=
  match a with
  | [] => []
  | a0 :: rest => (a0 ^^^ k) :: rest

/-- One round of Keccak-f[1600]. -/
def round (a : List Nat) (k : Nat) : List Nat := iota k (chi (rhoPi (theta a)))

/-- The permutation `keccakF1600`: 24 rounds. -/
def keccakF1600 (a : List Nat) : List Nat := rc.foldl round a

/-- The rate of SHA3-256 in bytes. -/
def rate : Nat := 136

/-- Read a little-endian 64-bit lane from (up to) 8 bytes. -/
def leLane : List Byte → Nat
  | [] => 0
  | b :: bs => b.val + 256 * leLane bs

/-- The lanes of one block of `rate` bytes, zero-extended to 25 lanes. -/
def blockLanes (blk : List Byte) : List Nat :=
  (List.range 25).map fun i => leLane ((blk.drop (8 * i)).take 8)

/-- XOR a block into the state and permute. -/
def absorbBlock (a : List Nat) (blk : List Byte) : List Nat :=
  keccakF1600 (List.zipWith (fun p q => p ^^^ q) a (blockLanes blk))

/-- Absorb the input; `fuel` bounds the number of blocks.  The last, incomplete block is padded
with the SHA3 domain byte `0x06`, zeros, and a final `0x80` (a single pad byte is `0x86`). -/
def absorb : Nat → List Nat → List Byte → List Nat
  | 0, a, _ => a
  | fuel + 1, a, msg =>
    if rate ≤ msg.length then
      absorb fuel (absorbBlock a (msg.take rate)) (msg.drop rate)
    else
      let padded : List Byte :=
        if msg.length + 1 = rate then msg ++ [0x86]
        else msg ++ [0x06] ++ List.replicate (rate - msg.length - 2) 0 ++ [0x80]
      absorbBlock a padded

/-- `sha3.Sum256`: the 32-byte SHA3-256 digest of `data`. -/
def Sum256 (data : List Byte) : List Byte :=
  let a := absorb (data.length / rate + 1) (List.replicate 25 0) data
  (List.range 32).map fun i => Fin.ofNat ((a.getD (i / 8) 0 >>> (8 * (i % 8))) % 256)

end sha3

/-! ## `encoding/base32` -/

namespace base32

/-- An `Encoding`: the 32-entry `encode` table and the padding character
(`none` is `NoPadding`). -/
structure Encoding where
  encode : List Char
  padChar : Option Char

/-- `base32.NewEncoding`: the default padding character is `=`. -/
def NewEncoding (encoder : String) : Encoding := ⟨encoder.toList, some '='⟩

/-- `Encoding.WithPadding`. -/
def Encoding.WithPadding (enc : Encoding) (padding : Option Char) : Encoding :=
  ⟨enc.encode, padding⟩

/-- The table lookup `enc.encode[v]`. -/
def Encoding.sym (enc : Encoding) (v : Nat) : Char := enc.encode.getD v '?'

/-- The padding that completes a final quantum of `remain` input bytes:
`nPad = remain * 8 / 5 + 1`, positions `nPad .. 7` receive the padding character. -/
def Encoding.pad (enc : Encoding) (remain : Nat) : List Char :=
  match enc.padChar with
  | none => []
  | some p => List.replicate (8 - (remain * 8 / 5 + 1)) p

/-- `Encoding.Encode`: full 5-byte groups become 8 characters; a final fragment of
1 to 4 bytes becomes 2, 4, 5 or 7 characters followed by the padding, if any. -/
def Encoding.Encode (enc : Encoding) : List Byte → List Char
  | b0 :: b1 :: b2 :: b3 :: b4 :: rest =>
    let hi := (b0.val <<< 24 ||| b1.val <<< 16 ||| b2.val <<< 8 ||| b3.val) % 2 ^ 32
    let lo := (hi <<< 8 ||| b4.val) % 2 ^ 32
    enc.sym ((hi >>> 27) &&& 0x1F) :: enc.sym ((hi >>> 22) &&& 0x1F) ::
    enc.sym ((hi >>> 17) &&& 0x1F) :: enc.sym ((hi >>> 12) &&& 0x1F) ::
    enc.sym ((hi >>> 7) &&& 0x1F) :: enc.sym ((hi >>> 2) &&& 0x1F) ::
    enc.sym ((lo >>> 5) &&& 0x1F) :: enc.sym (lo &&& 0x1F) :: enc.Encode rest
  | [b0, b1, b2, b3] =>
    let v4 := b3.val
    let v3 := v4 ||| (b2.val <<< 8) % 2 ^ 32
    let v2 := v3 ||| (b1.val <<< 16) % 2 ^ 32
    let v1 := v2 ||| (b0.val <<< 24) % 2 ^ 32
    [enc.sym ((v1 >>> 27) &&& 0x1F), enc.sym ((v1 >>> 22) &&& 0x1F),
     enc.sym ((v2 >>> 17) &&& 0x1F), enc.sym ((v2 >>> 12) &&& 0x1F),
     enc.sym ((v3 >>> 7) &&& 0x1F), enc.sym ((v4 >>> 2) &&& 0x1F),
     enc.sym (((v4 <<< 3) % 2 ^ 32) &&& 0x1F)] ++ enc.pad 4
  | [b0, b1, b2] =>
    let v3 := (b2.val <<< 8) % 2 ^ 32
    let v2 := v3 ||| (b1.val <<< 16) % 2 ^ 32
    let v1 := v2 ||| (b0.val <<< 24) % 2 ^ 32
    [enc.sym ((v1 >>> 27) &&& 0x1F), enc.sym ((v1 >>> 22) &&& 0x1F),
     enc.sym ((v2 >>> 17) &&& 0x1F), enc.sym ((v2 >>> 12) &&& 0x1F),
     enc.sym ((v3 >>> 7) &&& 0x1F)] ++ enc.pad 3
  | [b0, b1] =>
    let v2 := (b1.val <<< 16) % 2 ^ 32
    let v1 := v2 ||| (b0.val <<< 24) % 2 ^ 32
    [enc.sym ((v1 >>> 27) &&& 0x1F), enc.sym ((v1 >>> 22) &&& 0x1F),
     enc.sym ((v2 >>> 17) &&& 0x1F), enc.sym ((v2 >>> 12) &&& 0x1F)] ++ enc.pad 2
  | [b0] =>
    let v1 := (b0.val <<< 24) % 2 ^ 32
    [enc.sym ((v1 >>> 27) &&& 0x1F), enc.sym ((v1 >>> 22) &&& 0x1F)] ++ enc.pad 1
  | [] => []

/-- `Encoding.EncodeToString`. -/
def Encoding.EncodeToString (enc : Encoding) (src : List Byte) : String :=
  String.mk (enc.Encode src)

end base32

/-! ## `tor_keys_resource.go` -/

/-- `const b32Lower`. -/
def b32Lower : String := "abcdefghijklmnopqrstuvwxyz234567"

/-- `var b32Enc = base32.NewEncoding(b32Lower).WithPadding(base32.NoPadding)`. -/
def b32Enc : base32.Encoding := (base32.NewEncoding b32Lower).WithPadding none

/-- The body of `encodePublicKey` with the hash function `sum256` in place of
`sha3.Sum256`.  The slice `checksum[:2]` of the `[32]byte` digest is `checksum.take 2`. -/
def encodePublicKeyWith (sum256 : List Byte → List Byte) (publicKey : List Byte) : String :=
  -- checksum = H(".onion checksum" || publicKey || version)
  let checksumBytes : List Byte := []
  let checksumBytes := checksumBytes ++ bytesOf ".onion checksum"
  let checksumBytes := checksumBytes ++ publicKey
  let checksumBytes := checksumBytes ++ [0x03]
  let checksum := sum256 checksumBytes
  -- onion_address = base32(publicKey || checksum || version)
  let onionAddressBytes : List Byte := []
  let onionAddressBytes := onionAddressBytes ++ publicKey
  let onionAddressBytes := onionAddressBytes ++ checksum.take 2
  let onionAddressBytes := onionAddressBytes ++ [0x03]
  let onionAddress := b32Enc.EncodeToString onionAddressBytes
  onionAddress

/-- `encodePublicKey`. -/
def encodePublicKey (publicKey : List Byte) : String :=
  encodePublicKeyWith sha3.Sum256 publicKey

/-! ## RFC 4648 base-32, as the standard words it

The input is read as a stream of bits, most significant bit of each byte first; the
stream is cut into groups of 5 bits, the last group being completed with zero bits on
the right; each group, read as a number, indexes the alphabet.  No padding character
is emitted. -/

namespace rfc4648

/-- The 8 bits of a byte, most significant first. -/
def byteBits (b : Byte) : List Nat :=
  [b.val / 128 % 2, b.val / 64 % 2, b.val / 32 % 2, b.val / 16 % 2,
   b.val / 8 % 2, b.val / 4 % 2, b.val / 2 % 2, b.val % 2]

/-- The number whose binary digits, most significant first, are `bits`. -/
def bitsVal (bits : List Nat) : Nat := bits.foldl (fun acc b => 2 * acc + b) 0

/-- Cut a bit stream into groups of 5, the last one completed with zero bits. -/
def groups5 : List Nat → List (List Nat)
  | a :: b :: c :: d :: e :: rest => [a, b, c, d, e] :: groups5 rest
  | [a, b, c, d] => [[a, b, c, d, 0]]
  | [a, b, c] => [[a, b, c, 0, 0]]
  | [a, b] => [[a, b, 0, 0, 0]]
  | [a] => [[a, 0, 0, 0, 0]]
  | [] => []

/-- The lowercase base-32 alphabet: `a`-`z` for 0-25, `2`-`7` for 26-31. -/
def lowerAlphabet : List Char :=
  ['a', 'b', 'c', 'd', 'e', 'f', 'g', 'h', 'i', 'j', 'k', 'l', 'm', 'n', 'o', 'p',
   'q', 'r', 's', 't', 'u', 'v', 'w', 'x', 'y', 'z', '2', '3', '4', '5', '6', '7']

/-- Lowercase, unpadded RFC 4648 base-32 encoding. -/
def base32Lower (src : List Byte) : String :=
  String.mk ((groups5 (src.map byteBits).flatten).map fun g => lowerAlphabet.getD (bitsVal g) '?')

end rfc4648

/-! ## `encoding/base32` decoding, for an `Encoding` without padding -/

namespace base32

/-- The entry `enc.decodeMap[c]`: the index of `c` in the alphabet, `0xFF` when absent. -/
def Encoding.decodeMap (enc : Encoding) (c : Char) : Nat :=
  if enc.encode.indexOf c < 32 then enc.encode.indexOf c else 0xFF

/-- Read the characters of one quantum through `decodeMap`; `none` is
`CorruptInputError` (a character outside the alphabet). -/
def Encoding.dbuf (enc : Encoding) : List Char → Option (List Nat)
  | [] => some []
  | c :: cs =>
    if enc.decodeMap c = 0xFF then none
    else (enc.dbuf cs).map fun ds => enc.decodeMap c :: ds

/-- The five packing expressions of `decode`, on `byte` arithmetic. -/
def pack0 (d0 d1 : Nat) : Byte := Fin.ofNat ((d0 <<< 3) % 256 ||| d1 >>> 2)
/-- Second output byte of a quantum. -/
def pack1 (d1 d2 d3 : Nat) : Byte := Fin.ofNat ((d1 <<< 6) % 256 ||| (d2 <<< 1) % 256 ||| d3 >>> 4)
/-- Third output byte of a quantum. -/
def pack2 (d3 d4 : Nat) : Byte := Fin.ofNat ((d3 <<< 4) % 256 ||| d4 >>> 1)
/-- Fourth output byte of a quantum. -/
def pack3 (d4 d5 d6 : Nat) : Byte := Fin.ofNat ((d4 <<< 7) % 256 ||| (d5 <<< 2) % 256 ||| d6 >>> 3)
/-- Fifth output byte of a quantum. -/
def pack4 (d6 d7 : Nat) : Byte := Fin.ofNat ((d6 <<< 5) % 256 ||| d7)

/-- The `switch dlen` of `decode`: a quantum of 8, 7, 5, 4 or 2 characters gives
5, 4, 3, 2 or 1 bytes; other lengths match no case and give no byte. -/
def packQuantum : List Nat → List Byte
  | [d0, d1, d2, d3, d4, d5, d6, d7] =>
    [pack0 d0 d1, pack1 d1 d2 d3, pack2 d3 d4, pack3 d4 d5 d6, pack4 d6 d7]
  | [d0, d1, d2, d3, d4, d5, d6] => [pack0 d0 d1, pack1 d1 d2 d3, pack2 d3 d4, pack3 d4 d5 d6]
  | [d0, d1, d2, d3, d4] => [pack0 d0 d1, pack1 d1 d2 d3, pack2 d3 d4]
  | [d0, d1, d2, d3] => [pack0 d0 d1, pack1 d1 d2 d3]
  | [d0, d1] => [pack0 d0 d1]
  | _ => []

/-- The loop of `decode` for `NoPadding`: quanta of 8 characters, the last one possibly
shorter. -/
def Encoding.decode (enc : Encoding) : List Char → Option (List Byte)
  | c0 :: c1 :: c2 :: c3 :: c4 :: c5 :: c6 :: c7 :: rest =>
    match enc.dbuf [c0, c1, c2, c3, c4, c5, c6, c7] with
    | none => none
    | some ds => (enc.decode rest).map fun out => packQuantum ds ++ out
  | [] => some []
  | cs => (enc.dbuf cs).map packQuantum

/-- `Encoding.DecodeString` for `NoPadding`: carriage returns and line feeds are
stripped, then the input is decoded. -/
def Encoding.DecodeString (enc : Encoding) (s : String) : Option (List Byte) :=
  enc.decode (s.toList.filter fun c => c != '\r' && c != '\n')

end base32

/-! ## `encoding/base64` : `StdEncoding` -/

namespace base64

/-- An `Encoding`: the 64-entry `encode` table and the padding character. -/
structure Encoding where
  encode : List Char
  padChar : Option Char

/-- `const encodeStd`. -/
def encodeStd : String := "ABCDEFGHIJKLMNOPQRSTUVWXYZabcdefghijklmnopqrstuvwxyz0123456789+/"

/-- `var StdEncoding = NewEncoding(encodeStd)`, padded with `=`. -/
def StdEncoding : Encoding := ⟨encodeStd.toList, some '='⟩

/-- The table lookup `enc.encode[v]`. -/
def Encoding.sym (enc : Encoding) (v : Nat) : Char := enc.encode.getD v '?'

/-- The padding characters closing a final quantum that lacks `n` characters. -/
def Encoding.pad (enc : Encoding) (n : Nat) : List Char :=
  match enc.padChar with
  | none => []
  | some p => List.replicate n p

/-- `Encoding.Encode`: 3 bytes become 4 characters; a final fragment of 2 bytes or 1 byte
becomes 3 or 2 characters followed by the padding.  The value `val` stays below `2^24`,
so the width of `uint` plays no part. -/
def Encoding.Encode (enc : Encoding) : List Byte → List Char
  | b0 :: b1 :: b2 :: rest =>
    let val := b0.val <<< 16 ||| b1.val <<< 8 ||| b2.val
    enc.sym ((val >>> 18) &&& 0x3F) :: enc.sym ((val >>> 12) &&& 0x3F) ::
    enc.sym ((val >>> 6) &&& 0x3F) :: enc.sym (val &&& 0x3F) :: enc.Encode rest
  | [b0, b1] =>
    let val := b0.val <<< 16 ||| b1.val <<< 8
    [enc.sym ((val >>> 18) &&& 0x3F), enc.sym ((val >>> 12) &&& 0x3F),
     enc.sym ((val >>> 6) &&& 0x3F)] ++ enc.pad 1
  | [b0] =>
    let val := b0.val <<< 16
    [enc.sym ((val >>> 18) &&& 0x3F), enc.sym ((val >>> 12) &&& 0x3F)] ++ enc.pad 2
  | [] => []

/-- `Encoding.EncodeToString`. -/
def Encoding.EncodeToString (enc : Encoding) (src : List Byte) : String :=
  String.mk (enc.Encode src)

/-- The entry `enc.decodeMap[c]`: the index of `c` in the alphabet, `0xFF` when absent. -/
def Encoding.decodeMap (enc : Encoding) (c : Char) : Nat :=
  if enc.encode.indexOf c < 64 then enc.encode.indexOf c else 0xFF

/-- Read characters through `decodeMap`; `none` is `CorruptInputError`. -/
def Encoding.dbuf (enc : Encoding) : List Char → Option (List Nat)
  | [] => some []
  | c :: cs =>
    if enc.decodeMap c = 0xFF then none
    else (enc.dbuf cs).map fun ds => enc.decodeMap c :: ds

/-- The bytes of one quantum of `decodeQuantum` (not strict): 4, 3 or 2 characters give
3, 2 or 1 bytes. -/
def quantum : List Nat → List Byte
  | [d0, d1, d2, d3] =>
    let val := d0 <<< 18 ||| d1 <<< 12 ||| d2 <<< 6 ||| d3
    [Fin.ofNat (val >>> 16), Fin.ofNat (val >>> 8), Fin.ofNat val]
  | [d0, d1, d2] =>
    let val := d0 <<< 18 ||| d1 <<< 12 ||| d2 <<< 6
    [Fin.ofNat (val >>> 16), Fin.ofNat (val >>> 8)]
  | [d0, d1] =>
    let val := d0 <<< 18 ||| d1 <<< 12
    [Fin.ofNat (val >>> 16)]
  | _ => []

/-- Decoding with the padding character `p`: every quantum is 4 characters; only the last
one may end in one or two padding characters; an incomplete quantum is an error. -/
def Encoding.decode (enc : Encoding) (p : Char) : List Char → Option (List Byte)
  | [] => some []
  | [c0, c1, c2, c3] =>
    if c2 = p ∧ c3 = p then (enc.dbuf [c0, c1]).map quantum
    else if c3 = p then (enc.dbuf [c0, c1, c2]).map quantum
    else (enc.dbuf [c0, c1, c2, c3]).map quantum
  | c0 :: c1 :: c2 :: c3 :: rest =>
    match enc.dbuf [c0, c1, c2, c3] with
    | none => none
    | some ds => (enc.decode p rest).map fun out => quantum ds ++ out
  | _ => none

/-- `Encoding.DecodeString` for a padded encoding: carriage returns and line feeds are
skipped, then the input is decoded. -/
def Encoding.DecodeString (enc : Encoding) (s : String) : Option (List Byte) :=
  enc.decode (enc.padChar.getD '=') (s.toList.filter fun c => c != '\r' && c != '\n')

end base64

/-! ## `github.com/google/uuid` -/

namespace uuid

/-- `hex.Encode`: two lowercase hexadecimal digits per byte. -/
def hexEncode (src : List Byte) : List Char :=
  (src.map fun v =>
    ["0123456789abcdef".toList.getD (v.val >>> 4) '?',
     "0123456789abcdef".toList.getD (v.val &&& 0x0f) '?']).flatten

/-- `UUID.String` through `encodeHex`: the form `xxxxxxxx-xxxx-xxxx-xxxx-xxxxxxxxxxxx`
of the 16 bytes `u`. -/
def String (u : List Byte) : String :=
  String.mk (hexEncode (u.take 4) ++ ['-'] ++ hexEncode ((u.drop 4).take 2) ++ ['-'] ++
    hexEncode ((u.drop 6).take 2) ++ ['-'] ++ hexEncode ((u.drop 8).take 2) ++ ['-'] ++
    hexEncode (u.drop 10))

end uuid

/-! ## The resource `tor_keys` -/

/-- Severity of a diagnostic. -/
inductive Severity where
  | Error
  | Warning
  deriving DecidableEq

/-- A diagnostic of the plugin framework: severity, summary, detail. -/
structure Diagnostic where
  severity : Severity
  summary : String
  detail : String
  deriving DecidableEq

/-- `Diagnostics.HasError`. -/
def HasError (ds : List Diagnostic) : Bool := ds.any fun d => d.severity == Severity.Error

/-- `Diagnostics.Append`: each new diagnostic is added at the end unless an equal one is
already present (`Diagnostics.Contains`). -/
def AppendDiags (ds new : List Diagnostic) : List Diagnostic :=
  new.foldl (fun acc d => if d ∈ acc then acc else acc ++ [d]) ds

/-- `Diagnostics.AddError`: `Append` of one new error diagnostic. -/
def AddError (ds : List Diagnostic) (summary detail : String) : List Diagnostic :=
  AppendDiags ds [⟨Severity.Error, summary, detail⟩]

/-- A `types.String`: null, unknown, or a known value (`types.StringValue`). -/
inductive TFString where
  | null
  | unknown
  | StringValue (s : String)
  deriving DecidableEq

/-- `TorModel`. -/
structure TorModel where
  ID : TFString
  PrivateKey : TFString
  PublicKey : TFString
  Address : TFString
  deriving DecidableEq

/-- A `resource.CreateResponse`: the state (`none` before any write) and the diagnostics,
together with what the call wrote to standard output (the values given to
`fmt.Println`). -/
structure CreateResponse where
  State : Option TorModel
  Diagnostics : List Diagnostic
  Stdout : List TFString
  deriving DecidableEq

/-- What `Create` obtains from its collaborators: the model and diagnostics of
`req.Plan.Get`, the result of `uuid.NewUUID`, the result of `ed25519.GenerateKey`
(public key, secret key), and the diagnostics `resp.State.Set` reports for a model. -/
structure CreateEnv where
  planGet : TorModel × List Diagnostic
  newUUID : Except String (List Byte)
  generateKey : Except String (List Byte × List Byte)
  stateSet : TorModel → List Diagnostic

/-- `State.Set`: the state is replaced unless the conversion reports an error. -/
def StateSet (env : CreateEnv) (resp : CreateResponse) (data : TorModel) : CreateResponse :=
  let diags := env.stateSet data
  ⟨if HasError diags then resp.State else some data, AppendDiags resp.Diagnostics diags,
    resp.Stdout⟩

/-- `TorKeys.Create`. -/
def Create (env : CreateEnv) (resp : CreateResponse) : CreateResponse :=
  -- Read Terraform plan data into the model
  let data := env.planGet.1
  let resp : CreateResponse :=
    ⟨resp.State, AppendDiags resp.Diagnostics env.planGet.2, resp.Stdout⟩
  if HasError resp.Diagnostics then resp
  else
    match env.newUUID with
    | .error err =>
      ⟨resp.State, AddError resp.Diagnostics "failed to generate uuid" err, resp.Stdout⟩
    | .ok id =>
      match env.generateKey with
      | .error err =>
        ⟨resp.State, AddError resp.Diagnostics "failed to generate ed25519 key pair" err,
          resp.Stdout⟩
      | .ok (publicKey, secretKey) =>
        let onionAddress := encodePublicKey publicKey ++ ".onion"
        -- Set the computed value
        let data : TorModel := ⟨TFString.StringValue (uuid.String id), data.PrivateKey,
          data.PublicKey, data.Address⟩
        let data : TorModel := ⟨data.ID, data.PrivateKey, data.PublicKey,
          TFString.StringValue onionAddress⟩
        let data : TorModel := ⟨data.ID, data.PrivateKey,
          TFString.StringValue (base64.StdEncoding.EncodeToString publicKey), data.Address⟩
        let data : TorModel := ⟨data.ID,
          TFString.StringValue (base64.StdEncoding.EncodeToString secretKey), data.PublicKey,
          data.Address⟩
        let resp : CreateResponse := ⟨resp.State, resp.Diagnostics, resp.Stdout ++ [data.Address]⟩
        StateSet env resp data

/-- The key `pk` with bit `i` flipped: bit `i % 8` of byte `i / 8`. -/
def flipBit (pk : List Byte) (i : Nat) : List Byte :=
  pk.set (i / 8) (Fin.ofNat ((pk.getD (i / 8) 0).val ^^^ 2 ^ (i % 8)))

/-- A successful run of `Create`: the response it returns holds no error diagnostic, the
UUID generated in the run is `id` and the key pair generated in the run is `(pk, sk)`. -/
def CreateSucceeds (env : CreateEnv) (resp : CreateResponse) (id pk sk : List Byte) : Prop :=
  HasError (Create env resp).Diagnostics = false ∧ env.newUUID = Except.ok id ∧
  env.generateKey = Except.ok (pk, sk)

/-- The 35 bytes that `encodePublicKey` encodes: key, two checksum bytes, version. -/
def payload (pk : List Byte) : List Byte :=
  pk ++ (sha3.Sum256 (bytesOf ".onion checksum" ++ pk ++ [0x03])).take 2 ++ [0x03]

/-! ## Sample inputs -/

/-- The all-zero 32-byte public key. -/
def zeroKey : List Byte := List.replicate 32 0

/-- A plan in which every computed attribute is unknown. -/
def unknownPlan : TorModel := ⟨TFString.unknown, TFString.unknown, TFString.unknown,
  TFString.unknown⟩

/-- A response before `Create` runs: no state, no diagnostics, no output. -/
def emptyResponse : CreateResponse := ⟨none, [], []⟩

/-- A run in which every step succeeds, with the all-zero key, secret key `sk` and an
all-zero UUID. -/
def okEnv (sk : List Byte) : CreateEnv :=
  ⟨(unknownPlan, []), Except.ok (List.replicate 16 0), Except.ok (zeroKey, sk), fun _ => []⟩

/-- A run in which `ed25519.GenerateKey` fails with the error text `err`. -/
def keyFailEnv (err : String) : CreateEnv :=
  ⟨(unknownPlan, []), Except.ok (List.replicate 16 0), Except.error err, fun _ => []⟩

/-- A run in which `uuid.NewUUID` fails with the error text `err`. -/
def uuidFailEnv (err : String) : CreateEnv :=
  ⟨(unknownPlan, []), Except.error err, Except.ok (zeroKey, List.replicate 64 0), fun _ => []⟩

/-! ## Proof devices: the 5-bit and 6-bit digits of a byte string, by arithmetic -/

/-- The base-32 digits of a byte string, most significant first, written with division
and remainder; the last digit of an incomplete group is completed with zero bits. -/
def base32.indices : List Byte → List Nat
  | b0 :: b1 :: b2 :: b3 :: b4 :: rest =>
    b0.val / 8 :: (b0.val % 8 * 4 + b1.val / 64) :: (b1.val / 2 % 32) ::
    (b1.val % 2 * 16 + b2.val / 16) :: (b2.val % 16 * 2 + b3.val / 128) ::
    (b3.val / 4 % 32) :: (b3.val % 4 * 8 + b4.val / 32) :: (b4.val % 32) :: base32.indices rest
  | [b0, b1, b2, b3] =>
    [b0.val / 8, b0.val % 8 * 4 + b1.val / 64, b1.val / 2 % 32, b1.val % 2 * 16 + b2.val / 16,
     b2.val % 16 * 2 + b3.val / 128, b3.val / 4 % 32, b3.val % 4 * 8]
  | [b0, b1, b2] =>
    [b0.val / 8, b0.val % 8 * 4 + b1.val / 64, b1.val / 2 % 32, b1.val % 2 * 16 + b2.val / 16,
     b2.val % 16 * 2]
  | [b0, b1] => [b0.val / 8, b0.val % 8 * 4 + b1.val / 64, b1.val / 2 % 32, b1.val % 2 * 16]
  | [b0] => [b0.val / 8, b0.val % 8 * 4]
  | [] => []

/-- The base-64 digits of a byte string, most significant first. -/
def base64.indices : List Byte → List Nat
  | b0 :: b1 :: b2 :: rest =>
    b0.val / 4 :: (b0.val % 4 * 16 + b1.val / 16) :: (b1.val % 16 * 4 + b2.val / 64) ::
    (b2.val % 64) :: base64.indices rest
  | [b0, b1] => [b0.val / 4, b0.val % 4 * 16 + b1.val / 16, b1.val % 16 * 4]
  | [b0] => [b0.val / 4, b0.val % 4 * 16]
  | [] => []

/-! ## Bit operations as arithmetic -/

theorem or_eq_add_of_dvd (k x y : Nat) (hx : 2 ^ k ∣ x) (hy : y < 2 ^ k) : x ||| y = x + y := by
  obtain ⟨a, rfl⟩ := hx
  exact (Nat.mul_add_lt_is_or hy a).symm

theorem or_eq_add_of_lt (k x y : Nat) (hx : x < 2 ^ k) (hy : 2 ^ k ∣ y) : x ||| y = x + y := by
  rw [Nat.lor_comm, or_eq_add_of_dvd k y x hy hx, Nat.add_comm]

theorem and_31 (x : Nat) : x &&& 0x1F = x % 32 := Nat.and_pow_two_sub_one_eq_mod x 5

theorem and_63 (x : Nat) : x &&& 0x3F = x % 64 := Nat.and_pow_two_sub_one_eq_mod x 6

theorem hi_eq (b0 b1 b2 b3 : Nat) (h1 : b1 < 256) (h2 : b2 < 256) (h3 : b3 < 256) :
    b0 <<< 24 ||| b1 <<< 16 ||| b2 <<< 8 ||| b3
      = b0 * 16777216 + b1 * 65536 + b2 * 256 + b3 := by
  have e1 : b0 * 16777216 ||| b1 * 65536 = b0 * 16777216 + b1 * 65536 :=
    or_eq_add_of_dvd 24 _ _ ⟨b0, by ring⟩ (by omega)
  have e2 : (b0 * 16777216 + b1 * 65536) ||| b2 * 256 = b0 * 16777216 + b1 * 65536 + b2 * 256 :=
    or_eq_add_of_dvd 16 _ _ ⟨b0 * 256 + b1, by ring⟩ (by omega)
  have e3 : (b0 * 16777216 + b1 * 65536 + b2 * 256) ||| b3
      = b0 * 16777216 + b1 * 65536 + b2 * 256 + b3 :=
    or_eq_add_of_dvd 8 _ _ ⟨b0 * 65536 + b1 * 256 + b2, by ring⟩ (by omega)
  simp only [Nat.shiftLeft_eq, Nat.reducePow]
  rw [e1, e2, e3]

theorem lo_eq (hi b4 : Nat) (h4 : b4 < 256) : hi <<< 8 ||| b4 = hi * 256 + b4 := by
  simp only [Nat.shiftLeft_eq, Nat.reducePow]
  exact or_eq_add_of_dvd 8 _ _ ⟨hi, by ring⟩ (by omega)

theorem tailN_eq (k x y : Nat) (hx : x < 2 ^ k) (hk : k ≤ 32) :
    x ||| (y * 2 ^ k) % 2 ^ 32 = x + (y % 2 ^ (32 - k)) * 2 ^ k := by
  have e : (y * 2 ^ k) % 2 ^ 32 = (y % 2 ^ (32 - k)) * 2 ^ k := by
    have h32 : 2 ^ 32 = 2 ^ (32 - k) * 2 ^ k := by rw [← pow_add]; congr 1; omega
    rw [h32, Nat.mul_mod_mul_right]
  rw [e]
  exact or_eq_add_of_lt k _ _ hx ⟨y % 2 ^ (32 - k), by ring⟩

namespace base32

theorem Encode_eq_indices (enc : Encoding) (h : enc.padChar = none) (src : List Byte) :
    enc.Encode src = (indices src).map enc.sym := by
  induction src using Encoding.Encode.induct enc with
  | case1 b0 b1 b2 b3 b4 rest ih =>
    have h0 := b0.isLt
    have h1 := b1.isLt
    have h2 := b2.isLt
    have h3 := b3.isLt
    have h4 := b4.isLt
    rw [Encoding.Encode, indices, ih]
    simp only [hi_eq _ _ _ _ h1 h2 h3, lo_eq _ _ h4, and_31, Nat.shiftRight_eq_div_pow,
      List.map_cons]
    refine congrArg₂ _ (congrArg _ ?_) (congrArg₂ _ (congrArg _ ?_) (congrArg₂ _ (congrArg _ ?_)
      (congrArg₂ _ (congrArg _ ?_) (congrArg₂ _ (congrArg _ ?_) (congrArg₂ _ (congrArg _ ?_)
      (congrArg₂ _ (congrArg _ ?_) (congrArg₂ _ (congrArg _ ?_) rfl))))))) <;> omega
  | case2 b0 b1 b2 b3 =>
    have h0 := b0.isLt
    have h1 := b1.isLt
    have h2 := b2.isLt
    have h3 := b3.isLt
    rw [Encoding.Encode, indices]
    simp only [Encoding.pad, h, List.append_nil, List.map_cons, List.map_nil, Nat.shiftLeft_eq]
    rw [tailN_eq 8 _ _ (by omega) (by omega)]
    rw [tailN_eq 16 _ _ (by omega) (by omega)]
    rw [tailN_eq 24 _ _ (by omega) (by omega)]
    simp only [and_31, Nat.shiftRight_eq_div_pow, Nat.shiftLeft_eq]
    refine congrArg₂ _ (congrArg _ ?_) (congrArg₂ _ (congrArg _ ?_) (congrArg₂ _ (congrArg _ ?_)
      (congrArg₂ _ (congrArg _ ?_) (congrArg₂ _ (congrArg _ ?_) (congrArg₂ _ (congrArg _ ?_)
      (congrArg₂ _ (congrArg _ ?_) rfl)))))) <;> omega
  | case3 b0 b1 b2 =>
    have h0 := b0.isLt
    have h1 := b1.isLt
    have h2 := b2.isLt
    rw [Encoding.Encode, indices]
    simp only [Encoding.pad, h, List.append_nil, List.map_cons, List.map_nil, Nat.shiftLeft_eq]
    rw [tailN_eq 16 _ _ (by omega) (by omega)]
    rw [tailN_eq 24 _ _ (by omega) (by omega)]
    simp only [and_31, Nat.shiftRight_eq_div_pow]
    refine congrArg₂ _ (congrArg _ ?_) (congrArg₂ _ (congrArg _ ?_) (congrArg₂ _ (congrArg _ ?_)
      (congrArg₂ _ (congrArg _ ?_) (congrArg₂ _ (congrArg _ ?_) rfl)))) <;> omega
  | case4 b0 b1 =>
    have h0 := b0.isLt
    have h1 := b1.isLt
    rw [Encoding.Encode, indices]
    simp only [Encoding.pad, h, List.append_nil, List.map_cons, List.map_nil, Nat.shiftLeft_eq]
    rw [tailN_eq 24 _ _ (by omega) (by omega)]
    simp only [and_31, Nat.shiftRight_eq_div_pow]
    refine congrArg₂ _ (congrArg _ ?_) (congrArg₂ _ (congrArg _ ?_) (congrArg₂ _ (congrArg _ ?_)
      (congrArg₂ _ (congrArg _ ?_) rfl))) <;> omega
  | case5 b0 =>
    have h0 := b0.isLt
    rw [Encoding.Encode, indices]
    simp only [Encoding.pad, h, List.append_nil, List.map_cons, List.map_nil, Nat.shiftLeft_eq,
      and_31, Nat.shiftRight_eq_div_pow]
    refine congrArg₂ _ (congrArg _ ?_) (congrArg₂ _ (congrArg _ ?_) rfl) <;> omega
  | case6 => rfl

end base32

namespace base32

theorem indices_lt (src : List Byte) : ∀ v ∈ indices src, v < 32 := by
  induction src using indices.induct with
  | case1 b0 b1 b2 b3 b4 rest ih =>
    have h0 := b0.isLt
    have h1 := b1.isLt
    have h2 := b2.isLt
    have h3 := b3.isLt
    have h4 := b4.isLt
    intro v hv
    rw [indices] at hv
    simp only [List.mem_cons] at hv
    rcases hv with rfl | rfl | rfl | rfl | rfl | rfl | rfl | rfl | hv
    any_goals omega
    exact ih v hv
  | case2 b0 b1 b2 b3 =>
    have h0 := b0.isLt
    have h1 := b1.isLt
    have h2 := b2.isLt
    have h3 := b3.isLt
    intro v hv
    simp only [indices, List.mem_cons, List.mem_singleton, List.not_mem_nil, or_false] at hv
    rcases hv with rfl | rfl | rfl | rfl | rfl | rfl | rfl <;> omega
  | case3 b0 b1 b2 =>
    have h0 := b0.isLt
    have h1 := b1.isLt
    have h2 := b2.isLt
    intro v hv
    simp only [indices, List.mem_cons, List.mem_singleton, List.not_mem_nil, or_false] at hv
    rcases hv with rfl | rfl | rfl | rfl | rfl <;> omega
  | case4 b0 b1 =>
    have h0 := b0.isLt
    have h1 := b1.isLt
    intro v hv
    simp only [indices, List.mem_cons, List.mem_singleton, List.not_mem_nil, or_false] at hv
    rcases hv with rfl | rfl | rfl | rfl <;> omega
  | case5 b0 =>
    have h0 := b0.isLt
    intro v hv
    simp only [indices, List.mem_cons, List.mem_singleton, List.not_mem_nil, or_false] at hv
    rcases hv with rfl | rfl <;> omega
  | case6 => intro v hv; simp [indices] at hv

theorem indices_length (src : List Byte) : (indices src).length = (src.length * 8 + 4) / 5 := by
  induction src using indices.induct with
  | case1 b0 b1 b2 b3 b4 rest ih =>
    rw [indices]
    simp only [List.length_cons, ih]
    omega
  | case2 b0 b1 b2 b3 => simp [indices]
  | case3 b0 b1 b2 => simp [indices]
  | case4 b0 b1 => simp [indices]
  | case5 b0 => simp [indices]
  | case6 => rfl

/-- The digits of a string whose length is a positive multiple of 5 end with the low
five bits of the last byte. -/
theorem indices_getLast (src : List Byte) (h5 : src.length % 5 = 0) (b : Byte)
    (hb : src.getLast? = some b) : (indices src).getLast? = some (b.val % 32) := by
  induction src using indices.induct with
  | case1 b0 b1 b2 b3 b4 rest ih =>
    rw [indices]
    cases rest with
    | nil =>
      simp only [List.getLast?_cons_cons, List.getLast?_singleton, Option.some.injEq] at hb
      subst hb
      simp [indices]
    | cons r rs =>
      have hr : (r :: rs).length % 5 = 0 := by
        simp only [List.length_cons] at h5 ⊢
        omega
      have hb2 : (r :: rs).getLast? = some b := by
        simpa only [List.getLast?_cons_cons] using hb
      have ih2 := ih hr hb2
      have hne : indices (r :: rs) ≠ [] := by
        intro h0
        rw [h0] at ih2
        simp at ih2
      obtain ⟨x, xs, hx⟩ := List.exists_cons_of_ne_nil hne
      rw [hx] at ih2 ⊢
      simpa only [List.getLast?_cons_cons] using ih2
  | case2 b0 b1 b2 b3 => simp at h5
  | case3 b0 b1 b2 => simp at h5
  | case4 b0 b1 => simp at h5
  | case5 b0 => simp at h5
  | case6 => simp at hb

end base32

theorem or_eq_add_of_mod (k x y : Nat) (hx : x % 2 ^ k = 0) (hy : y < 2 ^ k) :
    x ||| y = x + y :=
  or_eq_add_of_dvd k x y (Nat.dvd_of_mod_eq_zero hx) hy

theorem ofNat_val (b : Byte) (n : Nat) (h : n = b.val) : (Fin.ofNat n : Byte) = b := by
  apply Fin.ext
  have hb := b.isLt
  simp only [Fin.ofNat, h]
  omega

namespace base32

theorem pack0_eq (b0 : Byte) (r : Nat) (hr : r < 4) :
    pack0 (b0.val / 8) (b0.val % 8 * 4 + r) = b0 := by
  have h0 := b0.isLt
  unfold pack0
  simp only [Nat.shiftLeft_eq, Nat.shiftRight_eq_div_pow]
  rw [or_eq_add_of_mod 3 _ _ (by omega) (by omega)]
  exact ofNat_val _ _ (by omega)

theorem pack1_eq (b1 : Byte) (d0 r : Nat) (hr : r < 16) :
    pack1 (d0 * 4 + b1.val / 64) (b1.val / 2 % 32) (b1.val % 2 * 16 + r) = b1 := by
  have h1 := b1.isLt
  unfold pack1
  simp only [Nat.shiftLeft_eq, Nat.shiftRight_eq_div_pow]
  rw [or_eq_add_of_mod 6 ((d0 * 4 + b1.val / 64) * 2 ^ 6 % 256) (b1.val / 2 % 32 * 2 ^ 1 % 256)
      (by omega) (by omega),
    or_eq_add_of_mod 1 _ _ (by omega) (by omega)]
  exact ofNat_val _ _ (by omega)

theorem pack2_eq (b2 : Byte) (d0 r : Nat) (hr : r < 2) :
    pack2 (d0 * 16 + b2.val / 16) (b2.val % 16 * 2 + r) = b2 := by
  have h2 := b2.isLt
  unfold pack2
  simp only [Nat.shiftLeft_eq, Nat.shiftRight_eq_div_pow]
  rw [or_eq_add_of_mod 4 _ _ (by omega) (by omega)]
  exact ofNat_val _ _ (by omega)

theorem pack3_eq (b3 : Byte) (d0 r : Nat) (hr : r < 8) :
    pack3 (d0 * 2 + b3.val / 128) (b3.val / 4 % 32) (b3.val % 4 * 8 + r) = b3 := by
  have h3 := b3.isLt
  unfold pack3
  simp only [Nat.shiftLeft_eq, Nat.shiftRight_eq_div_pow]
  rw [or_eq_add_of_mod 7 ((d0 * 2 + b3.val / 128) * 2 ^ 7 % 256) (b3.val / 4 % 32 * 2 ^ 2 % 256)
      (by omega) (by omega),
    or_eq_add_of_mod 2 _ _ (by omega) (by omega)]
  exact ofNat_val _ _ (by omega)

theorem pack4_eq (b4 : Byte) (d0 : Nat) : pack4 (d0 * 8 + b4.val / 32) (b4.val % 32) = b4 := by
  have h4 := b4.isLt
  unfold pack4
  simp only [Nat.shiftLeft_eq, Nat.shiftRight_eq_div_pow]
  rw [or_eq_add_of_mod 5 _ _ (by omega) (by omega)]
  exact ofNat_val _ _ (by omega)

/-- The digits of a 5-byte group pack back into the group. -/
theorem packQuantum_full (b0 b1 b2 b3 b4 : Byte) :
    packQuantum [b0.val / 8, b0.val % 8 * 4 + b1.val / 64, b1.val / 2 % 32,
      b1.val % 2 * 16 + b2.val / 16, b2.val % 16 * 2 + b3.val / 128, b3.val / 4 % 32,
      b3.val % 4 * 8 + b4.val / 32, b4.val % 32] = [b0, b1, b2, b3, b4] := by
  have h1 := b1.isLt
  have h2 := b2.isLt
  have h3 := b3.isLt
  have h4 := b4.isLt
  simp only [packQuantum]
  rw [pack0_eq b0 _ (by omega), pack1_eq b1 _ _ (by omega), pack2_eq b2 _ _ (by omega),
    pack3_eq b3 _ _ (by omega), pack4_eq b4]

theorem packQuantum_tail4 (b0 b1 b2 b3 : Byte) :
    packQuantum [b0.val / 8, b0.val % 8 * 4 + b1.val / 64, b1.val / 2 % 32,
      b1.val % 2 * 16 + b2.val / 16, b2.val % 16 * 2 + b3.val / 128, b3.val / 4 % 32,
      b3.val % 4 * 8] = [b0, b1, b2, b3] := by
  have h1 := b1.isLt
  have h2 := b2.isLt
  have h3 := b3.isLt
  have e := pack3_eq b3 (b2.val % 16) 0 (by omega)
  simp only [Nat.add_zero] at e
  simp only [packQuantum]
  rw [pack0_eq b0 _ (by omega), pack1_eq b1 _ _ (by omega), pack2_eq b2 _ _ (by omega), e]

theorem packQuantum_tail3 (b0 b1 b2 : Byte) :
    packQuantum [b0.val / 8, b0.val % 8 * 4 + b1.val / 64, b1.val / 2 % 32,
      b1.val % 2 * 16 + b2.val / 16, b2.val % 16 * 2] = [b0, b1, b2] := by
  have h1 := b1.isLt
  have h2 := b2.isLt
  have e := pack2_eq b2 (b1.val % 2) 0 (by omega)
  simp only [Nat.add_zero] at e
  simp only [packQuantum]
  rw [pack0_eq b0 _ (by omega), pack1_eq b1 _ _ (by omega), e]

theorem packQuantum_tail2 (b0 b1 : Byte) :
    packQuantum [b0.val / 8, b0.val % 8 * 4 + b1.val / 64, b1.val / 2 % 32,
      b1.val % 2 * 16] = [b0, b1] := by
  have h1 := b1.isLt
  have e := pack1_eq b1 (b0.val % 8) 0 (by omega)
  simp only [Nat.add_zero] at e
  simp only [packQuantum]
  rw [pack0_eq b0 _ (by omega), e]

theorem packQuantum_tail1 (b0 : Byte) :
    packQuantum [b0.val / 8, b0.val % 8 * 4] = [b0] := by
  have e := pack0_eq b0 0 (by omega)
  simp only [Nat.add_zero] at e
  simp only [packQuantum]
  rw [e]

/-- Reading back the characters of digits below 32 gives the digits, for an alphabet on
which `decodeMap` inverts `sym`. -/
theorem dbuf_map_sym (enc : Encoding) (hdec : ∀ v, v < 32 → enc.decodeMap (enc.sym v) = v)
    (ds : List Nat) (hds : ∀ v ∈ ds, v < 32) : enc.dbuf (ds.map enc.sym) = some ds := by
  induction ds with
  | nil => rfl
  | cons d ds ih =>
    have hd : d < 32 := hds d (List.mem_cons_self _ _)
    have hrest : ∀ v ∈ ds, v < 32 := fun v hv => hds v (List.mem_cons_of_mem _ hv)
    simp only [List.map_cons, Encoding.dbuf, hdec d hd, ih hrest]
    have : d ≠ 255 := by omega
    simp [this]

/-- Decoding the characters of the digits of `src` gives `src` back. -/
theorem decode_indices (enc : Encoding) (hdec : ∀ v, v < 32 → enc.decodeMap (enc.sym v) = v)
    (src : List Byte) : enc.decode ((indices src).map enc.sym) = some src := by
  induction src using indices.induct with
  | case1 b0 b1 b2 b3 b4 rest ih =>
    have hlt := indices_lt [b0, b1, b2, b3, b4]
    have hd := dbuf_map_sym enc hdec _ hlt
    simp only [indices, List.map_cons, List.map_nil] at hd
    simp only [indices, List.map_cons]
    rw [Encoding.decode, hd]
    simp only [ih, Option.map_some', packQuantum_full, List.cons_append, List.nil_append]
  | case2 b0 b1 b2 b3 =>
    have hd := dbuf_map_sym enc hdec _ (indices_lt [b0, b1, b2, b3])
    simp only [indices, List.map_cons, List.map_nil] at hd
    simp only [indices, List.map_cons, List.map_nil]
    rw [Encoding.decode, hd]
    · simp only [Option.map_some', packQuantum_tail4]
    · intros; simp_all
    · simp
  | case3 b0 b1 b2 =>
    have hd := dbuf_map_sym enc hdec _ (indices_lt [b0, b1, b2])
    simp only [indices, List.map_cons, List.map_nil] at hd
    simp only [indices, List.map_cons, List.map_nil]
    rw [Encoding.decode, hd]
    · simp only [Option.map_some', packQuantum_tail3]
    · intros; simp_all
    · simp
  | case4 b0 b1 =>
    have hd := dbuf_map_sym enc hdec _ (indices_lt [b0, b1])
    simp only [indices, List.map_cons, List.map_nil] at hd
    simp only [indices, List.map_cons, List.map_nil]
    rw [Encoding.decode, hd]
    · simp only [Option.map_some', packQuantum_tail2]
    · intros; simp_all
    · simp
  | case5 b0 =>
    have hd := dbuf_map_sym enc hdec _ (indices_lt [b0])
    simp only [indices, List.map_cons, List.map_nil] at hd
    simp only [indices, List.map_cons, List.map_nil]
    rw [Encoding.decode, hd]
    · simp only [Option.map_some', packQuantum_tail1]
    · intros; simp_all
    · simp
  | case6 => simp [indices, Encoding.decode]

end base32

namespace rfc4648

theorem bitsVal5 (a b c d e : Nat) : bitsVal [a, b, c, d, e] = 16 * a + 8 * b + 4 * c + 2 * d + e := by
  simp only [bitsVal, List.foldl_cons, List.foldl_nil]
  omega

theorem flatten_cons (b : Byte) (rest : List Byte) :
    (List.map byteBits (b :: rest)).flatten
      = b.val / 128 % 2 :: b.val / 64 % 2 :: b.val / 32 % 2 :: b.val / 16 % 2 ::
        b.val / 8 % 2 :: b.val / 4 % 2 :: b.val / 2 % 2 :: b.val % 2 ::
        (List.map byteBits rest).flatten := by
  simp [byteBits]

/-- The bit groups of RFC 4648 are the arithmetic digits. -/
theorem groups5_bitsVal (src : List Byte) :
    (groups5 (src.map byteBits).flatten).map bitsVal = base32.indices src := by
  induction src using base32.indices.induct with
  | case1 b0 b1 b2 b3 b4 rest ih =>
    simp only [flatten_cons, groups5, List.map_cons, bitsVal5, List.append_eq, List.nil_append,
      ih, base32.indices]
    refine congrArg₂ _ ?_ (congrArg₂ _ ?_ (congrArg₂ _ ?_ (congrArg₂ _ ?_ (congrArg₂ _ ?_
      (congrArg₂ _ ?_ (congrArg₂ _ ?_ (congrArg₂ _ ?_ rfl))))))) <;> omega
  | case2 b0 b1 b2 b3 =>
    simp only [flatten_cons, groups5, List.map_cons, List.map_nil, List.flatten_nil, bitsVal5,
      base32.indices]
    refine congrArg₂ _ ?_ (congrArg₂ _ ?_ (congrArg₂ _ ?_ (congrArg₂ _ ?_ (congrArg₂ _ ?_
      (congrArg₂ _ ?_ (congrArg₂ _ ?_ rfl)))))) <;> omega
  | case3 b0 b1 b2 =>
    simp only [flatten_cons, groups5, List.map_cons, List.map_nil, List.flatten_nil, bitsVal5,
      base32.indices]
    refine congrArg₂ _ ?_ (congrArg₂ _ ?_ (congrArg₂ _ ?_ (congrArg₂ _ ?_ (congrArg₂ _ ?_
      rfl)))) <;> omega
  | case4 b0 b1 =>
    simp only [flatten_cons, groups5, List.map_cons, List.map_nil, List.flatten_nil, bitsVal5,
      base32.indices]
    refine congrArg₂ _ ?_ (congrArg₂ _ ?_ (congrArg₂ _ ?_ (congrArg₂ _ ?_ rfl))) <;> omega
  | case5 b0 =>
    simp only [flatten_cons, groups5, List.map_cons, List.map_nil, List.flatten_nil, bitsVal5,
      base32.indices]
    refine congrArg₂ _ ?_ (congrArg₂ _ ?_ rfl) <;> omega
  | case6 => rfl

end rfc4648

/-! ## The encoding `b32Enc` -/

theorem b32Enc_padChar : b32Enc.padChar = none := rfl

theorem b32Enc_encode : b32Enc.encode = rfc4648.lowerAlphabet := by decide

theorem b32Enc_decodeMap_sym : ∀ v, v < 32 → b32Enc.decodeMap (b32Enc.sym v) = v := by
  decide

/-- `EncodeToString` of `b32Enc` is the lowercase unpadded RFC 4648 encoding. -/
theorem b32Enc_EncodeToString_eq_rfc (src : List Byte) :
    b32Enc.EncodeToString src = rfc4648.base32Lower src := by
  unfold base32.Encoding.EncodeToString rfc4648.base32Lower
  rw [base32.Encode_eq_indices b32Enc b32Enc_padChar, ← rfc4648.groups5_bitsVal, List.map_map]
  congr 1

theorem b32Enc_EncodeToString_length (src : List Byte) :
    (b32Enc.EncodeToString src).length = (src.length * 8 + 4) / 5 := by
  unfold base32.Encoding.EncodeToString
  rw [String.length_mk, base32.Encode_eq_indices b32Enc b32Enc_padChar, List.length_map,
    base32.indices_length]

/-- A character is in the alphabet `a`-`z`, `2`-`7`. -/
theorem b32Enc_sym_alphabet : ∀ v, v < 32 →
    (('a' ≤ b32Enc.sym v ∧ b32Enc.sym v ≤ 'z') ∨ ('2' ≤ b32Enc.sym v ∧ b32Enc.sym v ≤ '7')) := by
  decide

theorem b32Enc_EncodeToString_alphabet (src : List Byte) :
    ∀ c ∈ (b32Enc.EncodeToString src).toList,
      ('a' ≤ c ∧ c ≤ 'z') ∨ ('2' ≤ c ∧ c ≤ '7') := by
  intro c hc
  unfold base32.Encoding.EncodeToString at hc
  rw [base32.Encode_eq_indices b32Enc b32Enc_padChar] at hc
  change c ∈ List.map b32Enc.sym (base32.indices src) at hc
  simp only [List.mem_map] at hc
  obtain ⟨v, hv, rfl⟩ := hc
  exact b32Enc_sym_alphabet v (base32.indices_lt src v hv)

theorem b32Enc_sym_not_newline : ∀ v, v < 32 →
    (b32Enc.sym v != '\r' && b32Enc.sym v != '\n') = true := by
  decide

theorem b32Enc_DecodeString_EncodeToString (src : List Byte) :
    b32Enc.DecodeString (b32Enc.EncodeToString src) = some src := by
  unfold base32.Encoding.DecodeString base32.Encoding.EncodeToString
  rw [base32.Encode_eq_indices b32Enc b32Enc_padChar]
  have hf : ((base32.indices src).map b32Enc.sym).filter (fun c => c != '\r' && c != '\n')
      = (base32.indices src).map b32Enc.sym := by
    rw [List.filter_eq_self]
    intro c hc
    simp only [List.mem_map] at hc
    obtain ⟨v, hv, rfl⟩ := hc
    exact b32Enc_sym_not_newline v (base32.indices_lt src v hv)
  show b32Enc.decode (List.filter _ (List.map b32Enc.sym (base32.indices src))) = _
  rw [hf]
  exact base32.decode_indices b32Enc b32Enc_decodeMap_sym src

/-! ## `encoding/base64` -/

theorem ofNat_mod (b : Byte) (n : Nat) (h : n % 256 = b.val) : (Fin.ofNat n : Byte) = b := by
  apply Fin.ext
  simp only [Fin.ofNat]
  omega

theorem val3_eq (b0 b1 b2 : Nat) (h1 : b1 < 256) (h2 : b2 < 256) :
    b0 <<< 16 ||| b1 <<< 8 ||| b2 = b0 * 65536 + b1 * 256 + b2 := by
  have e1 : b0 * 65536 ||| b1 * 256 = b0 * 65536 + b1 * 256 :=
    or_eq_add_of_mod 16 _ _ (by omega) (by omega)
  have e2 : (b0 * 65536 + b1 * 256) ||| b2 = b0 * 65536 + b1 * 256 + b2 :=
    or_eq_add_of_mod 8 _ _ (by omega) (by omega)
  simp only [Nat.shiftLeft_eq, Nat.reducePow]
  rw [e1, e2]

theorem val2_eq (b0 b1 : Nat) (h1 : b1 < 256) :
    b0 <<< 16 ||| b1 <<< 8 = b0 * 65536 + b1 * 256 := by
  simp only [Nat.shiftLeft_eq, Nat.reducePow]
  exact or_eq_add_of_mod 16 _ _ (by omega) (by omega)

theorem dval4_eq (d0 d1 d2 d3 : Nat) (h1 : d1 < 64) (h2 : d2 < 64) (h3 : d3 < 64) :
    d0 <<< 18 ||| d1 <<< 12 ||| d2 <<< 6 ||| d3 = d0 * 262144 + d1 * 4096 + d2 * 64 + d3 := by
  have e1 : d0 * 262144 ||| d1 * 4096 = d0 * 262144 + d1 * 4096 :=
    or_eq_add_of_mod 18 _ _ (by omega) (by omega)
  have e2 : (d0 * 262144 + d1 * 4096) ||| d2 * 64 = d0 * 262144 + d1 * 4096 + d2 * 64 :=
    or_eq_add_of_mod 12 _ _ (by omega) (by omega)
  have e3 : (d0 * 262144 + d1 * 4096 + d2 * 64) ||| d3
      = d0 * 262144 + d1 * 4096 + d2 * 64 + d3 :=
    or_eq_add_of_mod 6 _ _ (by omega) (by omega)
  simp only [Nat.shiftLeft_eq, Nat.reducePow]
  rw [e1, e2, e3]

theorem dval3_eq (d0 d1 d2 : Nat) (h1 : d1 < 64) (h2 : d2 < 64) :
    d0 <<< 18 ||| d1 <<< 12 ||| d2 <<< 6 = d0 * 262144 + d1 * 4096 + d2 * 64 := by
  have e1 : d0 * 262144 ||| d1 * 4096 = d0 * 262144 + d1 * 4096 :=
    or_eq_add_of_mod 18 _ _ (by omega) (by omega)
  have e2 : (d0 * 262144 + d1 * 4096) ||| d2 * 64 = d0 * 262144 + d1 * 4096 + d2 * 64 :=
    or_eq_add_of_mod 12 _ _ (by omega) (by omega)
  simp only [Nat.shiftLeft_eq, Nat.reducePow]
  rw [e1, e2]

theorem dval2_eq (d0 d1 : Nat) (h1 : d1 < 64) :
    d0 <<< 18 ||| d1 <<< 12 = d0 * 262144 + d1 * 4096 := by
  simp only [Nat.shiftLeft_eq, Nat.reducePow]
  exact or_eq_add_of_mod 18 _ _ (by omega) (by omega)

namespace base64

theorem Encode_eq_sextets (enc : Encoding) (src : List Byte) :
    enc.Encode src = (indices src).map enc.sym ++ enc.pad ((3 - src.length % 3) % 3) := by
  induction src using Encoding.Encode.induct enc with
  | case1 b0 b1 b2 rest ih =>
    have h1 := b1.isLt
    have h2 := b2.isLt
    have hl : (3 - (b0 :: b1 :: b2 :: rest).length % 3) % 3 = (3 - rest.length % 3) % 3 := by
      simp only [List.length_cons]
      omega
    rw [Encoding.Encode, indices, ih, hl]
    simp only [val3_eq _ _ _ h1 h2, and_63, Nat.shiftRight_eq_div_pow, List.map_cons,
      List.cons_append]
    refine congrArg₂ _ (congrArg _ ?_) (congrArg₂ _ (congrArg _ ?_) (congrArg₂ _ (congrArg _ ?_)
      (congrArg₂ _ (congrArg _ ?_) rfl))) <;> omega
  | case2 b0 b1 =>
    have h0 := b0.isLt
    have h1 := b1.isLt
    rw [Encoding.Encode, indices]
    simp only [val2_eq _ _ h1, and_63, Nat.shiftRight_eq_div_pow, List.map_cons, List.map_nil,
      List.cons_append, List.nil_append, List.length_cons, List.length_nil]
    refine congrArg₂ _ (congrArg _ ?_) (congrArg₂ _ (congrArg _ ?_) (congrArg₂ _ (congrArg _ ?_)
      rfl)) <;> omega
  | case3 b0 =>
    have h0 := b0.isLt
    rw [Encoding.Encode, indices]
    simp only [and_63, Nat.shiftRight_eq_div_pow, Nat.shiftLeft_eq, List.map_cons, List.map_nil,
      List.cons_append, List.nil_append, List.length_cons, List.length_nil]
    refine congrArg₂ _ (congrArg _ ?_) (congrArg₂ _ (congrArg _ ?_) rfl) <;> omega
  | case4 => simp [Encoding.Encode, indices, Encoding.pad]; cases enc.padChar <;> simp

theorem sextets_lt (src : List Byte) : ∀ v ∈ indices src, v < 64 := by
  induction src using indices.induct with
  | case1 b0 b1 b2 rest ih =>
    have h0 := b0.isLt
    have h1 := b1.isLt
    have h2 := b2.isLt
    intro v hv
    rw [indices] at hv
    simp only [List.mem_cons] at hv
    rcases hv with rfl | rfl | rfl | rfl | hv
    any_goals omega
    exact ih v hv
  | case2 b0 b1 =>
    have h0 := b0.isLt
    have h1 := b1.isLt
    intro v hv
    simp only [indices, List.mem_cons, List.mem_singleton, List.not_mem_nil, or_false] at hv
    rcases hv with rfl | rfl | rfl <;> omega
  | case3 b0 =>
    have h0 := b0.isLt
    intro v hv
    simp only [indices, List.mem_cons, List.mem_singleton, List.not_mem_nil, or_false] at hv
    rcases hv with rfl | rfl <;> omega
  | case4 => intro v hv; simp [indices] at hv

theorem sextets_length (src : List Byte) : (indices src).length = (src.length * 8 + 5) / 6 := by
  induction src using indices.induct with
  | case1 b0 b1 b2 rest ih =>
    rw [indices]
    simp only [List.length_cons, ih]
    omega
  | case2 b0 b1 => simp [indices]
  | case3 b0 => simp [indices]
  | case4 => rfl

theorem quantum_full (b0 b1 b2 : Byte) :
    quantum [b0.val / 4, b0.val % 4 * 16 + b1.val / 16, b1.val % 16 * 4 + b2.val / 64,
      b2.val % 64] = [b0, b1, b2] := by
  have h0 := b0.isLt
  have h1 := b1.isLt
  have h2 := b2.isLt
  simp only [quantum]
  rw [dval4_eq _ _ _ _ (by omega) (by omega) (by omega)]
  simp only [Nat.shiftRight_eq_div_pow]
  rw [ofNat_mod b0 _ (by omega), ofNat_mod b1 _ (by omega), ofNat_mod b2 _ (by omega)]

theorem quantum_tail2 (b0 b1 : Byte) :
    quantum [b0.val / 4, b0.val % 4 * 16 + b1.val / 16, b1.val % 16 * 4] = [b0, b1] := by
  have h0 := b0.isLt
  have h1 := b1.isLt
  simp only [quantum]
  rw [dval3_eq _ _ _ (by omega) (by omega)]
  simp only [Nat.shiftRight_eq_div_pow]
  rw [ofNat_mod b0 _ (by omega), ofNat_mod b1 _ (by omega)]

theorem quantum_tail1 (b0 : Byte) :
    quantum [b0.val / 4, b0.val % 4 * 16] = [b0] := by
  have h0 := b0.isLt
  simp only [quantum]
  rw [dval2_eq _ _ (by omega)]
  simp only [Nat.shiftRight_eq_div_pow]
  rw [ofNat_mod b0 _ (by omega)]

end base64

namespace base64

theorem Encode_cons3 (enc : Encoding) (b0 b1 b2 : Byte) (rest : List Byte) :
    enc.Encode (b0 :: b1 :: b2 :: rest)
      = enc.sym (b0.val / 4) :: enc.sym (b0.val % 4 * 16 + b1.val / 16) ::
        enc.sym (b1.val % 16 * 4 + b2.val / 64) :: enc.sym (b2.val % 64) :: enc.Encode rest := by
  have hl : (3 - (b0 :: b1 :: b2 :: rest).length % 3) % 3 = (3 - rest.length % 3) % 3 := by
    simp only [List.length_cons]
    omega
  rw [Encode_eq_sextets enc (b0 :: b1 :: b2 :: rest), Encode_eq_sextets enc rest, hl, indices]
  simp only [List.map_cons, List.cons_append]

theorem Encode_ne_nil (enc : Encoding) (b : Byte) (rest : List Byte) :
    ∃ x xs, enc.Encode (b :: rest) = x :: xs := by
  match rest with
  | [] => exact ⟨_, _, by rw [Encoding.Encode]; rfl⟩
  | [b1] => exact ⟨_, _, by rw [Encoding.Encode]; rfl⟩
  | b1 :: b2 :: rest2 => exact ⟨_, _, by rw [Encoding.Encode]⟩

theorem dbuf_map_sym64 (enc : Encoding) (hdec : ∀ v, v < 64 → enc.decodeMap (enc.sym v) = v)
    (ds : List Nat) (hds : ∀ v ∈ ds, v < 64) : enc.dbuf (ds.map enc.sym) = some ds := by
  induction ds with
  | nil => rfl
  | cons d ds ih =>
    have hd : d < 64 := hds d (List.mem_cons_self _ _)
    have hrest : ∀ v ∈ ds, v < 64 := fun v hv => hds v (List.mem_cons_of_mem _ hv)
    simp only [List.map_cons, Encoding.dbuf, hdec d hd, ih hrest]
    have : d ≠ 255 := by omega
    simp [this]

/-- Decoding what `Encode` produces gives the input back, for a padded encoding whose
padding character is outside the alphabet. -/
theorem decode_Encode (enc : Encoding) (p : Char) (hp : enc.padChar = some p)
    (hdec : ∀ v, v < 64 → enc.decodeMap (enc.sym v) = v)
    (hne : ∀ v, v < 64 → enc.sym v ≠ p) (src : List Byte) :
    enc.decode p (enc.Encode src) = some src := by
  induction src using indices.induct with
  | case1 b0 b1 b2 rest ih =>
    have h0 := b0.isLt
    have h1 := b1.isLt
    have h2 := b2.isLt
    have hd := dbuf_map_sym64 enc hdec _ (sextets_lt [b0, b1, b2])
    simp only [indices, List.map_cons, List.map_nil] at hd
    rw [Encode_cons3]
    cases rest with
    | nil =>
      have e3 : enc.sym (b2.val % 64) ≠ p := hne _ (by omega)
      simp only [Encoding.Encode, Encoding.decode, e3, and_false, if_false, hd, Option.map_some',
        quantum_full]
    | cons r rs =>
      obtain ⟨x, xs, hx⟩ := Encode_ne_nil enc r rs
      rw [hx] at ih ⊢
      rw [Encoding.decode, hd]
      · simp only [ih, Option.map_some', quantum_full, List.cons_append, List.nil_append]
      · intro h; simp at h
  | case2 b0 b1 =>
    have h0 := b0.isLt
    have h1 := b1.isLt
    have hd := dbuf_map_sym64 enc hdec _ (sextets_lt [b0, b1])
    simp only [indices, List.map_cons, List.map_nil] at hd
    have e2 : enc.sym (b1.val % 16 * 4) ≠ p := hne _ (by omega)
    rw [Encode_eq_sextets]
    simp only [indices, Encoding.pad, hp, List.map_cons, List.map_nil, List.length_cons,
      List.length_nil, List.cons_append, List.nil_append, Nat.reduceAdd, Nat.reduceMod,
      Nat.reduceSub, List.replicate, Encoding.decode, e2, false_and, if_false, if_true, hd,
      Option.map_some', quantum_tail2]
  | case3 b0 =>
    have h0 := b0.isLt
    have hd := dbuf_map_sym64 enc hdec _ (sextets_lt [b0])
    simp only [indices, List.map_cons, List.map_nil] at hd
    rw [Encode_eq_sextets]
    simp only [indices, Encoding.pad, hp, List.map_cons, List.map_nil, List.length_cons,
      List.length_nil, List.cons_append, List.nil_append, Nat.reduceAdd, Nat.reduceMod,
      Nat.reduceSub, List.replicate, Encoding.decode, and_self, if_true, hd,
      Option.map_some', quantum_tail1]
  | case4 => simp [Encoding.Encode, Encoding.decode]

end base64

/-! ## The encoding `base64.StdEncoding` -/

theorem StdEncoding_decodeMap_sym :
    ∀ v, v < 64 → base64.StdEncoding.decodeMap (base64.StdEncoding.sym v) = v := by
  decide

theorem StdEncoding_sym_ne_pad : ∀ v, v < 64 → base64.StdEncoding.sym v ≠ '=' := by
  decide

theorem StdEncoding_sym_not_newline : ∀ v, v < 64 →
    (base64.StdEncoding.sym v != '\r' && base64.StdEncoding.sym v != '\n') = true := by
  decide

theorem StdEncoding_EncodeToString_length (src : List Byte) :
    (base64.StdEncoding.EncodeToString src).length = (src.length + 2) / 3 * 4 := by
  unfold base64.Encoding.EncodeToString
  rw [String.length_mk, base64.Encode_eq_sextets, List.length_append, List.length_map,
    base64.sextets_length]
  simp only [base64.Encoding.pad, base64.StdEncoding, List.length_replicate]
  omega

theorem StdEncoding_DecodeString_EncodeToString (src : List Byte) :
    base64.StdEncoding.DecodeString (base64.StdEncoding.EncodeToString src) = some src := by
  unfold base64.Encoding.DecodeString base64.Encoding.EncodeToString
  have hf : (base64.StdEncoding.Encode src).filter (fun c => c != '\r' && c != '\n')
      = base64.StdEncoding.Encode src := by
    rw [List.filter_eq_self]
    intro c hc
    rw [base64.Encode_eq_sextets] at hc
    simp only [List.mem_append, List.mem_map] at hc
    rcases hc with ⟨v, hv, rfl⟩ | hc
    · exact StdEncoding_sym_not_newline v (base64.sextets_lt src v hv)
    · simp only [base64.Encoding.pad, base64.StdEncoding, List.mem_replicate] at hc
      rw [hc.2]
      decide
  show base64.StdEncoding.decode _ (List.filter _ (base64.StdEncoding.Encode src)) = _
  rw [hf]
  exact base64.decode_Encode base64.StdEncoding '=' rfl StdEncoding_decodeMap_sym
    StdEncoding_sym_ne_pad src

/-! ## `encodePublicKey` and `Create` -/

theorem Sum256_length (data : List Byte) : (sha3.Sum256 data).length = 32 := by
  simp [sha3.Sum256]

theorem checksum_take_length (data : List Byte) : ((sha3.Sum256 data).take 2).length = 2 := by
  rw [List.length_take, Sum256_length]
  rfl

theorem encodePublicKey_eq (pk : List Byte) :
    encodePublicKey pk = b32Enc.EncodeToString (payload pk) := rfl

theorem payload_length (pk : List Byte) : (payload pk).length = pk.length + 3 := by
  unfold payload
  rw [List.length_append, List.length_append, checksum_take_length]
  rfl

theorem payload_injective (pk pk2 : List Byte) (h : payload pk = payload pk2) : pk = pk2 := by
  have hl : pk.length = pk2.length := by
    have := congrArg List.length h
    rw [payload_length, payload_length] at this
    omega
  unfold payload at h
  simp only [List.append_assoc] at h
  exact (List.append_inj h hl).1

theorem encodePublicKey_injective (pk pk2 : List Byte)
    (h : encodePublicKey pk = encodePublicKey pk2) : pk = pk2 := by
  apply payload_injective
  have h1 := b32Enc_DecodeString_EncodeToString (payload pk)
  have h2 := b32Enc_DecodeString_EncodeToString (payload pk2)
  rw [← encodePublicKey_eq, h, encodePublicKey_eq, h2] at h1
  exact (Option.some.inj h1).symm

theorem xor_bit_ne : ∀ (b : Fin 256) (j : Fin 8), (Fin.ofNat (b.val ^^^ 2 ^ j.val) : Byte) ≠ b := by
  decide!

theorem flipBit_ne (pk : List Byte) (i : Nat) (hi : i / 8 < pk.length) : flipBit pk i ≠ pk := by
  intro h
  have hlen : i / 8 < (flipBit pk i).length := by
    unfold flipBit
    rw [List.length_set]
    exact hi
  have e1 : (flipBit pk i)[i / 8] = pk[i / 8] := by
    simp only [h]
  have e2 : (flipBit pk i)[i / 8]
      = (Fin.ofNat ((pk.getD (i / 8) 0).val ^^^ 2 ^ (i % 8)) : Byte) := by
    simp only [flipBit, List.getElem_set_self]
  rw [e2, List.getD_eq_getElem pk 0 hi] at e1
  exact xor_bit_ne pk[i / 8] ⟨i % 8, Nat.mod_lt _ (by decide)⟩ e1

theorem flipBit_length (pk : List Byte) (i : Nat) : (flipBit pk i).length = pk.length := by
  unfold flipBit
  rw [List.length_set]

theorem uuid_String_length (u : List Byte) : 4 ≤ (uuid.String u).length := by
  unfold uuid.String
  rw [String.length_mk]
  simp only [List.length_append, List.length_singleton]
  omega

/-- A list of diagnostics without an error does not contain an error diagnostic. -/
theorem not_mem_of_no_error (ds : List Diagnostic) (summary detail : String)
    (h : HasError ds = false) : (⟨Severity.Error, summary, detail⟩ : Diagnostic) ∉ ds := by
  intro hm
  have : HasError ds = true := by
    unfold HasError
    rw [List.any_eq_true]
    exact ⟨_, hm, by simp⟩
  rw [h] at this
  exact Bool.false_ne_true this

/-- On diagnostics without an error, `AddError` adds its diagnostic at the end. -/
theorem AddError_of_no_error (ds : List Diagnostic) (summary detail : String)
    (h : HasError ds = false) :
    AddError ds summary detail = ds ++ [⟨Severity.Error, summary, detail⟩] := by
  simp only [AddError, AppendDiags, List.foldl_cons, List.foldl_nil,
    not_mem_of_no_error ds summary detail h, if_false]

theorem HasError_append_error (ds : List Diagnostic) (summary detail : String) :
    HasError (ds ++ [⟨Severity.Error, summary, detail⟩]) = true := by
  simp [HasError]

/-- `AppendDiags` keeps every error: the result holds an error exactly when one of the two
lists does. -/
theorem HasError_AppendDiags (new ds : List Diagnostic) :
    HasError (AppendDiags ds new) = (HasError ds || HasError new) := by
  induction new generalizing ds with
  | nil => simp [AppendDiags, HasError]
  | cons d new ih =>
    have step : AppendDiags ds (d :: new)
        = AppendDiags (if d ∈ ds then ds else ds ++ [d]) new := rfl
    rw [step, ih]
    by_cases hd : d ∈ ds
    · rw [if_pos hd]
      by_cases he : d.severity = Severity.Error
      · have : HasError ds = true := by
          unfold HasError
          rw [List.any_eq_true]
          exact ⟨d, hd, by simp [he]⟩
        simp [this]
      · have hb : (d.severity == Severity.Error) = false := beq_eq_false_iff_ne.mpr he
        simp [HasError, hb]
    · rw [if_neg hd]
      simp [HasError, Bool.or_assoc]

/-- In a successful run every step reports no error: the plan read and the state write. -/
theorem steps_of_succeeds (env : CreateEnv) (resp : CreateResponse) (id pk sk : List Byte)
    (h : CreateSucceeds env resp id pk sk) :
    HasError (AppendDiags resp.Diagnostics env.planGet.2) = false ∧
      HasError (env.stateSet ⟨TFString.StringValue (uuid.String id),
        TFString.StringValue (base64.StdEncoding.EncodeToString sk),
        TFString.StringValue (base64.StdEncoding.EncodeToString pk),
        TFString.StringValue (encodePublicKey pk ++ ".onion")⟩) = false := by
  obtain ⟨h1, h2, h3⟩ := h
  by_cases hplan : HasError (AppendDiags resp.Diagnostics env.planGet.2) = true
  · simp only [Create, hplan, if_true] at h1
    exact absurd h1 (by decide)
  · have hplan2 : HasError (AppendDiags resp.Diagnostics env.planGet.2) = false := by
      simpa using hplan
    refine ⟨hplan2, ?_⟩
    simp only [Create, hplan2, h2, h3, StateSet, HasError_AppendDiags, Bool.or_eq_false_iff,
      Bool.false_eq_true, if_false, true_and] at h1
    exact h1

/-- The state after a successful run of `Create`. -/
theorem Create_State_of_succeeds (env : CreateEnv) (resp : CreateResponse) (id pk sk : List Byte)
    (h : CreateSucceeds env resp id pk sk) :
    (Create env resp).State = some ⟨TFString.StringValue (uuid.String id),
      TFString.StringValue (base64.StdEncoding.EncodeToString sk),
      TFString.StringValue (base64.StdEncoding.EncodeToString pk),
      TFString.StringValue (encodePublicKey pk ++ ".onion")⟩ := by
  obtain ⟨hplan, hset⟩ := steps_of_succeeds env resp id pk sk h
  obtain ⟨_, h2, h3⟩ := h
  simp only [Create, hplan, h2, h3, StateSet]
  rw [hset]
  rfl

theorem encodePublicKeyWith_eq (sum256 : List Byte → List Byte) (pk : List Byte) :
    encodePublicKeyWith sum256 pk = b32Enc.EncodeToString
      (pk ++ (sum256 (bytesOf ".onion checksum" ++ pk ++ [0x03])).take 2 ++ [0x03]) := rfl

theorem marker_length : (bytesOf ".onion checksum").length = 15 := by decide

/-- The last character of the encoding of a string whose length is a positive multiple
of 5 is the symbol of the low five bits of its last byte. -/
theorem b32Enc_EncodeToString_getLast (src : List Byte) (h5 : src.length % 5 = 0) (b : Byte)
    (hb : src.getLast? = some b) :
    (b32Enc.EncodeToString src).toList.getLast? = some (b32Enc.sym (b.val % 32)) := by
  unfold base32.Encoding.EncodeToString
  show (b32Enc.Encode src).getLast? = _
  rw [base32.Encode_eq_indices b32Enc b32Enc_padChar, List.getLast?_map,
    base32.indices_getLast src h5 b hb]
  rfl

theorem okEnv_succeeds (sk : List Byte) :
    CreateSucceeds (okEnv sk) emptyResponse (List.replicate 16 0) zeroKey sk :=
  ⟨rfl, rfl, rfl⟩

/-- Known answer: the first bytes of SHA3-256 of the empty message are `a7 ff c6 f8`. -/
theorem Sum256_empty_take4 : (sha3.Sum256 []).take 4 = [0xa7, 0xff, 0xc6, 0xf8] := by
  decide!

/-- Known vector: the address body of the all-zero key. -/
theorem encodePublicKey_zeroKey :
    encodePublicKey zeroKey = "aaaaaaaaaaaaaaaaaaaaaaaaaaaaaaaaaaaaaaaaaaaaaaaaaaam2dqd" := by
  decide!

theorem payload_parts (pk c : List Byte) (v : Byte) (hpk : pk.length = 32)
    (hc : c.length = 2) :
    (pk ++ c ++ [v]).take 32 = pk ∧ ((pk ++ c ++ [v]).drop 32).take 2 = c ∧
      (pk ++ c ++ [v]).drop 34 = [v] := by
  have e : 34 = (pk ++ c).length := by
    rw [List.length_append, hc, hpk]
  refine ⟨?_, ?_, ?_⟩
  · rw [List.append_assoc, ← hpk, List.take_left]
  · rw [List.append_assoc, ← hpk, List.drop_left, ← hc, List.take_left]
  · rw [e, List.drop_left]

/-! ## Properties of `encodePublicKey` and `Create` -/

/-- C1: for every 32-byte public key, `encodePublicKey` is the lowercase unpadded RFC 4648
base-32 encoding of the 35-byte payload key ++ c ++ [0x03], where c is the first 2 bytes of
SHA3-256 applied once to the 48-byte stream ".onion checksum" ++ key ++ [0x03]. -/
theorem encodePublicKey_is_rfc4648_of_payload (pk : List Byte) (hpk : pk.length = 32) :
    encodePublicKey pk = rfc4648.base32Lower
        (pk ++ (sha3.Sum256 (bytesOf ".onion checksum" ++ pk ++ [0x03])).take 2 ++ [0x03]) ∧
      (bytesOf ".onion checksum" ++ pk ++ [0x03]).length = 48 ∧
      ((sha3.Sum256 (bytesOf ".onion checksum" ++ pk ++ [0x03])).take 2).length = 2 ∧
      (pk ++ (sha3.Sum256 (bytesOf ".onion checksum" ++ pk ++ [0x03])).take 2 ++ [0x03]).length
        = 35 := by
  refine ⟨?_, ?_, checksum_take_length _, ?_⟩
  · rw [encodePublicKey_eq, b32Enc_EncodeToString_eq_rfc]
    rfl
  · simp only [List.length_append, marker_length, hpk, List.length_singleton]
  · have := payload_length pk
    unfold payload at this
    rw [this, hpk]

theorem encodePublicKey_is_rfc4648_of_payload_witness :
    zeroKey.length = 32 ∧
    (encodePublicKey zeroKey = rfc4648.base32Lower
        (zeroKey ++ (sha3.Sum256 (bytesOf ".onion checksum" ++ zeroKey ++ [0x03])).take 2
          ++ [0x03]) ∧
      (bytesOf ".onion checksum" ++ zeroKey ++ [0x03]).length = 48 ∧
      ((sha3.Sum256 (bytesOf ".onion checksum" ++ zeroKey ++ [0x03])).take 2).length = 2 ∧
      (zeroKey ++ (sha3.Sum256 (bytesOf ".onion checksum" ++ zeroKey ++ [0x03])).take 2
        ++ [0x03]).length = 35) :=
  ⟨by decide, encodePublicKey_is_rfc4648_of_payload zeroKey (by decide)⟩

/-- C2: for every 32-byte public key, `encodePublicKey` gives exactly 56 characters, each in
`a`-`z` or `2`-`7`; the address stored by a successful `Create` is that string followed by
".onion", 62 characters in all. -/
theorem address_is_56_base32_chars_and_suffix (pk : List Byte) (hpk : pk.length = 32) :
    (encodePublicKey pk).length = 56 ∧
      (∀ c ∈ (encodePublicKey pk).toList, ('a' ≤ c ∧ c ≤ 'z') ∨ ('2' ≤ c ∧ c ≤ '7')) ∧
      (encodePublicKey pk ++ ".onion").length = 62 ∧
      (encodePublicKey pk ++ ".onion").toList.drop 56 = ".onion".toList ∧
      ∀ env resp id sk, CreateSucceeds env resp id pk sk →
        Option.map TorModel.Address (Create env resp).State
          = some (TFString.StringValue (encodePublicKey pk ++ ".onion")) := by
  have hlen : (encodePublicKey pk).length = 56 := by
    rw [encodePublicKey_eq, b32Enc_EncodeToString_length, payload_length, hpk]
  refine ⟨hlen, ?_, ?_, ?_, ?_⟩
  · rw [encodePublicKey_eq]
    exact b32Enc_EncodeToString_alphabet _
  · rw [String.length_append, hlen]
    rfl
  · have hl : (encodePublicKey pk).toList.length = 56 := hlen
    show ((encodePublicKey pk).toList ++ ".onion".toList).drop 56 = _
    rw [← hl, List.drop_left]
  · intro env resp id sk h
    rw [Create_State_of_succeeds env resp id pk sk h]
    rfl

theorem address_is_56_base32_chars_and_suffix_witness :
    zeroKey.length = 32 ∧
      CreateSucceeds (okEnv (List.replicate 64 0)) emptyResponse (List.replicate 16 0) zeroKey
        (List.replicate 64 0) ∧
      (encodePublicKey zeroKey).length = 56 ∧
      (∀ c ∈ (encodePublicKey zeroKey).toList, ('a' ≤ c ∧ c ≤ 'z') ∨ ('2' ≤ c ∧ c ≤ '7')) ∧
      (encodePublicKey zeroKey ++ ".onion").length = 62 ∧
      (encodePublicKey zeroKey ++ ".onion").toList.drop 56 = ".onion".toList ∧
      Option.map TorModel.Address (Create (okEnv (List.replicate 64 0)) emptyResponse).State
        = some (TFString.StringValue (encodePublicKey zeroKey ++ ".onion")) :=
  have h := address_is_56_base32_chars_and_suffix zeroKey (by decide)
  ⟨by decide, okEnv_succeeds _, h.1, h.2.1, h.2.2.1, h.2.2.2.1,
    h.2.2.2.2 _ _ _ _ (okEnv_succeeds _)⟩

/-- C3 as stated fails: for a 31-byte key `encodePublicKey` reports no error; it hashes the
stream built from the key and returns the 55-character encoding of the key as it is. -/
theorem encodePublicKey_accepts_31_bytes :
    encodePublicKey (List.replicate 31 0)
        = "aaaaaaaaaaaaaaaaaaaaaaaaaaaaaaaaaaaaaaaaaaaaaaaaacm7say" ∧
      encodePublicKey (List.replicate 31 0) = b32Enc.EncodeToString
        (List.replicate 31 0 ++
          (sha3.Sum256 (bytesOf ".onion checksum" ++ List.replicate 31 0 ++ [0x03])).take 2 ++
          [0x03]) ∧
      (sha3.Sum256 (bytesOf ".onion checksum" ++ List.replicate 31 0 ++ [0x03])).take 2
        = [0x99, 0xf9] := by
  refine ⟨?_, rfl, ?_⟩ <;> decide!

/-- C3, amended: `encodePublicKey` has no length check and no error result.  For a key of any
length it hashes ".onion checksum" ++ key ++ [0x03] and returns the lowercase unpadded
base-32 encoding of key ++ first two hash bytes ++ [0x03]: a string of
`((n + 3) * 8 + 4) / 5` characters for `n` key bytes, which decodes to that payload, the key
neither truncated nor padded. -/
theorem encodePublicKey_total_any_length (pk : List Byte) :
    encodePublicKey pk = rfc4648.base32Lower
        (pk ++ (sha3.Sum256 (bytesOf ".onion checksum" ++ pk ++ [0x03])).take 2 ++ [0x03]) ∧
      (encodePublicKey pk).length = ((pk.length + 3) * 8 + 4) / 5 ∧
      b32Enc.DecodeString (encodePublicKey pk) = some
        (pk ++ (sha3.Sum256 (bytesOf ".onion checksum" ++ pk ++ [0x03])).take 2 ++ [0x03]) := by
  refine ⟨?_, ?_, ?_⟩
  · rw [encodePublicKey_eq, b32Enc_EncodeToString_eq_rfc]
    rfl
  · rw [encodePublicKey_eq, b32Enc_EncodeToString_length, payload_length]
  · rw [encodePublicKey_eq]
    exact b32Enc_DecodeString_EncodeToString (payload pk)

/-- C4: round trip.  For every 32-byte public key, base-32 decoding `encodePublicKey pk`
(the address without its ".onion" suffix) succeeds and gives 35 bytes: the key, then the
first two bytes of the SHA3-256 checksum, then 0x03. -/
theorem decode_address_recovers_key (pk : List Byte) (hpk : pk.length = 32) :
    ∃ out, b32Enc.DecodeString (encodePublicKey pk) = some out ∧
      b32Enc.DecodeString (String.mk ((encodePublicKey pk ++ ".onion").toList.take 56))
        = some out ∧
      out.length = 35 ∧ out.take 32 = pk ∧
      (out.drop 32).take 2
        = (sha3.Sum256 (bytesOf ".onion checksum" ++ pk ++ [0x03])).take 2 ∧
      out.drop 34 = [0x03] := by
  have hdec : b32Enc.DecodeString (encodePublicKey pk) = some (payload pk) := by
    rw [encodePublicKey_eq]
    exact b32Enc_DecodeString_EncodeToString (payload pk)
  have hlen : (encodePublicKey pk).toList.length = 56 := by
    show (encodePublicKey pk).length = 56
    rw [encodePublicKey_eq, b32Enc_EncodeToString_length, payload_length, hpk]
  have hstrip : String.mk ((encodePublicKey pk ++ ".onion").toList.take 56)
      = encodePublicKey pk := by
    show String.mk (((encodePublicKey pk).toList ++ ".onion".toList).take 56) = _
    rw [← hlen, List.take_left]
    rfl
  have hc := checksum_take_length (bytesOf ".onion checksum" ++ pk ++ [0x03])
  have hparts := payload_parts pk _ 0x03 hpk hc
  refine ⟨payload pk, hdec, ?_, ?_, hparts.1, hparts.2.1, hparts.2.2⟩
  · rw [hstrip]
    exact hdec
  · rw [payload_length, hpk]

theorem decode_address_recovers_key_witness :
    zeroKey.length = 32 ∧
    ∃ out, b32Enc.DecodeString (encodePublicKey zeroKey) = some out ∧
      b32Enc.DecodeString (String.mk ((encodePublicKey zeroKey ++ ".onion").toList.take 56))
        = some out ∧
      out.length = 35 ∧ out.take 32 = zeroKey ∧
      (out.drop 32).take 2
        = (sha3.Sum256 (bytesOf ".onion checksum" ++ zeroKey ++ [0x03])).take 2 ∧
      out.drop 34 = [0x03] :=
  ⟨by decide, decode_address_recovers_key zeroKey (by decide)⟩

/-- C5: for every 32-byte public key and every bit position below 256, flipping that bit
changes the derived address; `encodePublicKey` is injective on 32-byte keys. -/
theorem bit_flip_changes_address (pk pk2 : List Byte) (i : Nat) (hpk : pk.length = 32)
    (hpk2 : pk2.length = 32) (hi : i < 256) :
    (flipBit pk i).length = 32 ∧
      encodePublicKey (flipBit pk i) ≠ encodePublicKey pk ∧
      (encodePublicKey pk = encodePublicKey pk2 → pk = pk2) ∧
      (pk ≠ pk2 → encodePublicKey pk ++ ".onion" ≠ encodePublicKey pk2 ++ ".onion") := by
  refine ⟨?_, ?_, encodePublicKey_injective pk pk2, ?_⟩
  · rw [flipBit_length, hpk]
  · intro h
    exact flipBit_ne pk i (by omega) (encodePublicKey_injective _ _ h)
  · intro hne h
    apply hne
    apply encodePublicKey_injective
    have hl : (encodePublicKey pk).toList.length = (encodePublicKey pk2).toList.length := by
      show (encodePublicKey pk).length = (encodePublicKey pk2).length
      rw [encodePublicKey_eq, encodePublicKey_eq, b32Enc_EncodeToString_length,
        b32Enc_EncodeToString_length, payload_length, payload_length, hpk, hpk2]
    have hd : (encodePublicKey pk).toList ++ ".onion".toList
        = (encodePublicKey pk2).toList ++ ".onion".toList := congrArg String.toList h
    exact String.ext ((List.append_inj hd hl).1)

theorem bit_flip_changes_address_witness :
    zeroKey.length = 32 ∧ (List.replicate 32 (1 : Byte)).length = 32 ∧ 9 < 256 ∧
      (flipBit zeroKey 9).length = 32 ∧
      encodePublicKey (flipBit zeroKey 9) ≠ encodePublicKey zeroKey ∧
      (encodePublicKey zeroKey = encodePublicKey (List.replicate 32 1) →
        zeroKey = List.replicate 32 1) ∧
      (zeroKey ≠ List.replicate 32 1 → encodePublicKey zeroKey ++ ".onion"
        ≠ encodePublicKey (List.replicate 32 1) ++ ".onion") :=
  ⟨by decide, by decide, by decide,
    bit_flip_changes_address zeroKey (List.replicate 32 1) 9 (by decide) (by decide) (by decide)⟩

/-- C6: only the first 2 bytes of the hash reach the address.  With the hash a parameter of
`encodePublicKey`, two hash functions whose outputs on the checksum input agree in their
first 2 bytes give the same address; `encodePublicKey` is the instance at `sha3.Sum256`. -/
theorem address_depends_on_first_two_hash_bytes (h1 h2 : List Byte → List Byte)
    (pk : List Byte)
    (hagree : (h1 (bytesOf ".onion checksum" ++ pk ++ [0x03])).take 2
      = (h2 (bytesOf ".onion checksum" ++ pk ++ [0x03])).take 2) :
    encodePublicKeyWith h1 pk = encodePublicKeyWith h2 pk ∧
      encodePublicKeyWith h1 pk ++ ".onion" = encodePublicKeyWith h2 pk ++ ".onion" ∧
      encodePublicKey pk = encodePublicKeyWith sha3.Sum256 pk := by
  have e : encodePublicKeyWith h1 pk = encodePublicKeyWith h2 pk := by
    rw [encodePublicKeyWith_eq, encodePublicKeyWith_eq, hagree]
  exact ⟨e, by rw [e], rfl⟩

theorem address_depends_on_first_two_hash_bytes_witness :
    ((fun _ => [1, 2, 3, 4]) (bytesOf ".onion checksum" ++ zeroKey ++ [0x03])
        : List Byte).take 2
      = ((fun _ => [1, 2, 9, 9]) (bytesOf ".onion checksum" ++ zeroKey ++ [0x03])
        : List Byte).take 2 ∧
    (encodePublicKeyWith (fun _ => [1, 2, 3, 4]) zeroKey
        = encodePublicKeyWith (fun _ => [1, 2, 9, 9]) zeroKey ∧
      encodePublicKeyWith (fun _ => [1, 2, 3, 4]) zeroKey ++ ".onion"
        = encodePublicKeyWith (fun _ => [1, 2, 9, 9]) zeroKey ++ ".onion" ∧
      encodePublicKey zeroKey = encodePublicKeyWith sha3.Sum256 zeroKey) :=
  ⟨rfl, address_depends_on_first_two_hash_bytes (fun _ => [1, 2, 3, 4]) (fun _ => [1, 2, 9, 9])
    zeroKey rfl⟩

/-- C7: after a `Create` in which every step succeeds, with key pair `(pk, sk)` of 32 and 64
bytes and UUID `id`, the state holds four non-empty strings: `public_key` is the padded
base-64 of `pk` (44 characters), `private_key` the padded base-64 of `sk` (88 characters),
`address` is `encodePublicKey pk` followed by ".onion", `id` is the string form of the UUID;
decoding `public_key` and deriving the address from the result gives the stored address. -/
theorem Create_stores_computed_attributes (env : CreateEnv) (resp : CreateResponse)
    (id pk sk : List Byte) (h : CreateSucceeds env resp id pk sk) (hpk : pk.length = 32)
    (hsk : sk.length = 64) :
    ∃ ident priv pub addr : String,
      (Create env resp).State = some ⟨TFString.StringValue ident, TFString.StringValue priv,
        TFString.StringValue pub, TFString.StringValue addr⟩ ∧
      pub = base64.StdEncoding.EncodeToString pk ∧ pub.length = 44 ∧
      priv = base64.StdEncoding.EncodeToString sk ∧ priv.length = 88 ∧
      addr = encodePublicKey pk ++ ".onion" ∧ ident = uuid.String id ∧
      ident ≠ "" ∧ priv ≠ "" ∧ pub ≠ "" ∧ addr ≠ "" ∧
      ∃ pk2, base64.StdEncoding.DecodeString pub = some pk2 ∧
        encodePublicKey pk2 ++ ".onion" = addr := by
  have hpub : (base64.StdEncoding.EncodeToString pk).length = 44 := by
    rw [StdEncoding_EncodeToString_length, hpk]
  have hpriv : (base64.StdEncoding.EncodeToString sk).length = 88 := by
    rw [StdEncoding_EncodeToString_length, hsk]
  have hne : ∀ s : String, 0 < s.length → s ≠ "" := by
    intro s hs e
    rw [e] at hs
    exact Nat.lt_irrefl 0 hs
  refine ⟨_, _, _, _, Create_State_of_succeeds env resp id pk sk h, rfl, hpub, rfl, hpriv, rfl,
    rfl, ?_, ?_, ?_, ?_, pk, StdEncoding_DecodeString_EncodeToString pk, rfl⟩
  · exact hne _ (Nat.lt_of_lt_of_le (by decide) (uuid_String_length id))
  · exact hne _ (by rw [hpriv]; decide)
  · exact hne _ (by rw [hpub]; decide)
  · apply hne
    rw [String.length_append]
    exact Nat.lt_of_lt_of_le (by decide) (Nat.le_add_left _ _)

theorem Create_stores_computed_attributes_witness :
    CreateSucceeds (okEnv (List.replicate 64 0)) emptyResponse (List.replicate 16 0) zeroKey
        (List.replicate 64 0) ∧
      zeroKey.length = 32 ∧ (List.replicate 64 (0 : Byte)).length = 64 ∧
    ∃ ident priv pub addr : String,
      (Create (okEnv (List.replicate 64 0)) emptyResponse).State
        = some ⟨TFString.StringValue ident, TFString.StringValue priv,
          TFString.StringValue pub, TFString.StringValue addr⟩ ∧
      pub = base64.StdEncoding.EncodeToString zeroKey ∧ pub.length = 44 ∧
      priv = base64.StdEncoding.EncodeToString (List.replicate 64 0) ∧ priv.length = 88 ∧
      addr = encodePublicKey zeroKey ++ ".onion" ∧ ident = uuid.String (List.replicate 16 0) ∧
      ident ≠ "" ∧ priv ≠ "" ∧ pub ≠ "" ∧ addr ≠ "" ∧
      ∃ pk2, base64.StdEncoding.DecodeString pub = some pk2 ∧
        encodePublicKey pk2 ++ ".onion" = addr :=
  ⟨okEnv_succeeds _, by decide, by decide,
    Create_stores_computed_attributes (okEnv (List.replicate 64 0)) emptyResponse
      (List.replicate 16 0) zeroKey (List.replicate 64 0) (okEnv_succeeds _) (by decide)
      (by decide)⟩

/-- C8: address derivation depends only on the public key.  Equal keys give equal strings,
and two runs of `Create` that succeed with the same public key store the same address,
whatever the secret keys, the UUIDs, the plans and the earlier responses. -/
theorem address_depends_only_on_public_key (env1 env2 : CreateEnv)
    (resp1 resp2 : CreateResponse) (id1 id2 pk sk1 sk2 : List Byte)
    (h1 : CreateSucceeds env1 resp1 id1 pk sk1) (h2 : CreateSucceeds env2 resp2 id2 pk sk2) :
    Option.map TorModel.Address (Create env1 resp1).State
        = Option.map TorModel.Address (Create env2 resp2).State ∧
      Option.map TorModel.Address (Create env1 resp1).State
        = some (TFString.StringValue (encodePublicKey pk ++ ".onion")) ∧
      ∀ pk2, pk2 = pk → encodePublicKey pk2 = encodePublicKey pk := by
  rw [Create_State_of_succeeds env1 resp1 id1 pk sk1 h1,
    Create_State_of_succeeds env2 resp2 id2 pk sk2 h2]
  exact ⟨rfl, rfl, fun pk2 e => by rw [e]⟩

theorem address_depends_only_on_public_key_witness :
    CreateSucceeds (okEnv (List.replicate 64 0)) emptyResponse (List.replicate 16 0) zeroKey
        (List.replicate 64 0) ∧
      CreateSucceeds (okEnv (List.replicate 64 7)) emptyResponse (List.replicate 16 0) zeroKey
        (List.replicate 64 7) ∧
      Option.map TorModel.Address (Create (okEnv (List.replicate 64 0)) emptyResponse).State
        = Option.map TorModel.Address (Create (okEnv (List.replicate 64 7)) emptyResponse).State ∧
      Option.map TorModel.Address (Create (okEnv (List.replicate 64 0)) emptyResponse).State
        = some (TFString.StringValue (encodePublicKey zeroKey ++ ".onion")) ∧
      ∀ pk2, pk2 = zeroKey → encodePublicKey pk2 = encodePublicKey zeroKey :=
  ⟨okEnv_succeeds _, okEnv_succeeds _,
    address_depends_only_on_public_key (okEnv (List.replicate 64 0))
      (okEnv (List.replicate 64 7)) emptyResponse emptyResponse (List.replicate 16 0)
      (List.replicate 16 0) zeroKey (List.replicate 64 0) (List.replicate 64 7)
      (okEnv_succeeds _) (okEnv_succeeds _)⟩

/-- C9: when the plan read reports no error and key-pair generation fails, `Create` appends
the error diagnostic "failed to generate ed25519 key pair" with the generator's error text
and leaves the state and the output untouched; a UUID failure does the same with
"failed to generate uuid", and the key generator is not consulted. -/
theorem Create_generation_failure (env : CreateEnv) (resp : CreateResponse)
    (hplan : HasError (AppendDiags resp.Diagnostics env.planGet.2) = false) :
    (∀ id err, env.newUUID = Except.ok id → env.generateKey = Except.error err →
      Create env resp = ⟨resp.State, AppendDiags resp.Diagnostics env.planGet.2 ++
        [⟨Severity.Error, "failed to generate ed25519 key pair", err⟩], resp.Stdout⟩ ∧
      HasError (Create env resp).Diagnostics = true) ∧
    (∀ err, env.newUUID = Except.error err →
      Create env resp = ⟨resp.State, AppendDiags resp.Diagnostics env.planGet.2 ++
        [⟨Severity.Error, "failed to generate uuid", err⟩], resp.Stdout⟩ ∧
      HasError (Create env resp).Diagnostics = true) := by
  refine ⟨?_, ?_⟩
  · intro id err hid hkey
    have e : Create env resp = ⟨resp.State, AppendDiags resp.Diagnostics env.planGet.2 ++
        [⟨Severity.Error, "failed to generate ed25519 key pair", err⟩], resp.Stdout⟩ := by
      simp only [Create, hplan, hid, hkey, AddError_of_no_error _ _ _ hplan]
      rfl
    exact ⟨e, by rw [e]; exact HasError_append_error _ _ _⟩
  · intro err hid
    have e : Create env resp = ⟨resp.State, AppendDiags resp.Diagnostics env.planGet.2 ++
        [⟨Severity.Error, "failed to generate uuid", err⟩], resp.Stdout⟩ := by
      simp only [Create, hplan, hid, AddError_of_no_error _ _ _ hplan]
      rfl
    exact ⟨e, by rw [e]; exact HasError_append_error _ _ _⟩

theorem Create_generation_failure_witness :
    HasError (AppendDiags emptyResponse.Diagnostics (keyFailEnv "entropy").planGet.2) = false ∧
      (keyFailEnv "entropy").newUUID = Except.ok (List.replicate 16 0) ∧
      (keyFailEnv "entropy").generateKey = Except.error "entropy" ∧
      Create (keyFailEnv "entropy") emptyResponse = ⟨none,
        [⟨Severity.Error, "failed to generate ed25519 key pair", "entropy"⟩], []⟩ ∧
      HasError (AppendDiags emptyResponse.Diagnostics (uuidFailEnv "clock").planGet.2) = false ∧
      (uuidFailEnv "clock").newUUID = Except.error "clock" ∧
      Create (uuidFailEnv "clock") emptyResponse = ⟨none,
        [⟨Severity.Error, "failed to generate uuid", "clock"⟩], []⟩ :=
  ⟨rfl, rfl, rfl,
    ((Create_generation_failure (keyFailEnv "entropy") emptyResponse rfl).1 _ _ rfl rfl).1,
    rfl, rfl,
    ((Create_generation_failure (uuidFailEnv "clock") emptyResponse rfl).2 _ rfl).1⟩

/-- C10: for every 32-byte public key the last character of the encoded key is `d`, the
symbol of the low five bits of the version byte 0x03, whatever hash function with 32-byte
output is used; every address stored by a successful `Create` ends in "d.onion". -/
theorem address_ends_in_d_onion (sum256 : List Byte → List Byte)
    (hsum : ∀ x, (sum256 x).length = 32) (pk : List Byte) (hpk : pk.length = 32) :
    (encodePublicKeyWith sum256 pk).toList.getLast? = some 'd' ∧
      (encodePublicKey pk).toList.getLast? = some 'd' ∧
      ∃ body : String, encodePublicKey pk = body ++ "d" ∧
        ∀ env resp id sk, CreateSucceeds env resp id pk sk →
          Option.map TorModel.Address (Create env resp).State
            = some (TFString.StringValue (body ++ "d.onion")) := by
  have key : ∀ f : List Byte → List Byte, (∀ x, (f x).length = 32) →
      (encodePublicKeyWith f pk).toList.getLast? = some 'd' := by
    intro f hf
    rw [encodePublicKeyWith_eq]
    have h5 : (pk ++ (f (bytesOf ".onion checksum" ++ pk ++ [0x03])).take 2
        ++ [0x03]).length % 5 = 0 := by
      simp only [List.length_append, List.length_take, hf, hpk, List.length_singleton]
      rfl
    have hl : (pk ++ (f (bytesOf ".onion checksum" ++ pk ++ [0x03])).take 2
        ++ [0x03]).getLast? = some 0x03 := by
      rw [List.getLast?_append]
      rfl
    rw [b32Enc_EncodeToString_getLast _ h5 0x03 hl]
    rfl
  have hlast : (encodePublicKey pk).toList.getLast? = some 'd' := key sha3.Sum256 Sum256_length
  refine ⟨key sum256 hsum, hlast, ?_⟩
  obtain ⟨ys, hys⟩ := List.getLast?_eq_some_iff.mp hlast
  have hbody : encodePublicKey pk = String.mk ys ++ "d" := String.ext hys
  refine ⟨String.mk ys, hbody, ?_⟩
  intro env resp id sk h
  rw [Create_State_of_succeeds env resp id pk sk h, hbody, String.append_assoc]
  rfl

theorem address_ends_in_d_onion_witness :
    (∀ x, (sha3.Sum256 x).length = 32) ∧ zeroKey.length = 32 ∧
      CreateSucceeds (okEnv (List.replicate 64 0)) emptyResponse (List.replicate 16 0) zeroKey
        (List.replicate 64 0) ∧
      (encodePublicKeyWith sha3.Sum256 zeroKey).toList.getLast? = some 'd' ∧
      (encodePublicKey zeroKey).toList.getLast? = some 'd' ∧
      ∃ body : String, encodePublicKey zeroKey = body ++ "d" ∧
        Option.map TorModel.Address (Create (okEnv (List.replicate 64 0)) emptyResponse).State
          = some (TFString.StringValue (body ++ "d.onion")) := by
  obtain ⟨h1, h2, body, hb, hc⟩ :=
    address_ends_in_d_onion sha3.Sum256 Sum256_length zeroKey (by decide)
  exact ⟨Sum256_length, by decide, okEnv_succeeds _, h1, h2, body, hb,
    hc _ _ _ _ (okEnv_succeeds _)⟩
